import Mathlib

/-!
# Verification development for the pyRouterJig core utilities

A shallow embedding of the core of `src/utils.py` and `src/serialize.py`
(pyRouterJig): the exact-fraction value type `My_Fraction`, the `Units`
conversion/formatting class, the `Margins` record, the design
serialization/unserialization protocol, and the `print_table` pass-table
report generator.

Modelling conventions:
* Python strings are `List Char` (`PyStr`); Python dynamic values loaded from
  a pickle stream are `PVal`.
* Python `int` is `ℤ`; Python `float` is modelled as `ℚ` (every floating-point
  value arising in the verified flows is a small dyadic/decimal rational that
  a double represents exactly, so exact rational arithmetic is faithful there).
* Fallible Python code (raising `ValueError`, `TypeError`,
  `ZeroDivisionError`, `IndexError`, ...) is modelled with `Except String`.
* Python `//` on integers is floor division, i.e. `Int.fdiv`; Python `round`
  and `Decimal.quantize` round half to even; Python `int()` on a float
  truncates toward zero (`ratTrunc`).
* `My_Fraction` stores its `whole`/`numerator`/`denominator` fields as
  integers: in the source these fields transiently become integral floats
  (after `/=`), and `reduce` immediately re-casts them with `int()` (the
  source comments at `utils.py:82` note this); the model keeps them `ℤ`.
* The class attribute `Units.quant`, reassigned by every `Units.__init__`,
  is modelled by passing the current value of the attribute explicitly
  (`quant` parameter) and by `Units.initQuant`, the value `__init__` writes.
-/

namespace PyRouterJig

/-! ## Python strings and their primitive operations -/

abbrev PyStr := List Char

/-- The decimal digit characters, in order. -/
def digitChar : ℕ → Char
  | 0 => '0'
  | 1 => '1'
  | 2 => '2'
  | 3 => '3'
  | 4 => '4'
  | 5 => '5'
  | 6 => '6'
  | 7 => '7'
  | 8 => '8'
  | _ => '9'

/-- Inverse of `digitChar` on decimal digit characters. -/
def charToDigit (c : Char) : ℕ :=
  if c = '0' then 0
  else if c = '1' then 1
  else if c = '2' then 2
  else if c = '3' then 3
  else if c = '4' then 4
  else if c = '5' then 5
  else if c = '6' then 6
  else if c = '7' then 7
  else if c = '8' then 8
  else 9

def isDigitChar (c : Char) : Bool :=
  c = '0' || c = '1' || c = '2' || c = '3' || c = '4' ||
  c = '5' || c = '6' || c = '7' || c = '8' || c = '9'

/-- Whitespace characters recognised by Python `str.strip()` / `str.split()`
(the flows verified here only ever contain `' '`). -/
def isSpaceChar (c : Char) : Bool :=
  c = ' ' || c = '\t' || c = '\n' || c = '\r'

/-- Little-endian decimal digits of `n`, with explicit fuel so the kernel can
evaluate it (agrees with `Nat.digits 10` when `n ≤ fuel`, proved below). -/
def natDigitsAux : ℕ → ℕ → List ℕ
  | 0, _ => []
  | fuel + 1, n => if n = 0 then [] else n % 10 :: natDigitsAux fuel (n / 10)

/-- Decimal rendering of a natural number, as Python `'%d' % n` produces for
a non-negative `n`. -/
def natToChars (n : ℕ) : PyStr :=
  if n = 0 then ['0'] else ((natDigitsAux n n).map digitChar).reverse

/-- Decimal rendering of an integer (Python `'%d' % n`). -/
def formatD (n : ℤ) : PyStr :=
  if n < 0 then '-' :: natToChars n.natAbs else natToChars n.toNat

/-- Numeric value of a string of decimal digit characters. -/
def digitsVal (s : PyStr) : ℕ :=
  Nat.ofDigits 10 ((s.map charToDigit).reverse)

def lstripWS (s : PyStr) : PyStr := s.dropWhile isSpaceChar

/-- Python `str.strip()` (for the whitespace of `isSpaceChar`). -/
def stripWS (s : PyStr) : PyStr :=
  ((s.dropWhile isSpaceChar).reverse.dropWhile isSpaceChar).reverse

/-- Python `int(s)` on a string: optional surrounding whitespace, an optional
sign, then a non-empty run of decimal digits; anything else raises
`ValueError`. -/
def pyIntParse (s : PyStr) : Except String ℤ :=
  match stripWS s with
  | [] => .error ("ValueError: invalid literal for int")
  | c :: rest =>
    if c = '-' then
      if !rest.isEmpty && rest.all isDigitChar then .ok (-(digitsVal rest : ℤ))
      else .error ("ValueError: invalid literal for int")
    else if c = '+' then
      if !rest.isEmpty && rest.all isDigitChar then .ok ((digitsVal rest : ℤ))
      else .error ("ValueError: invalid literal for int")
    else
      if (c :: rest).all isDigitChar then .ok ((digitsVal (c :: rest) : ℤ))
      else .error ("ValueError: invalid literal for int")

/-- Python `s.split(sep)` for a single-character separator: splits at every
occurrence, keeping empty pieces (`"a//b".split('/') == ['a','','b']`,
`"".split('/') == ['']`). -/
def splitOnChar (sep : Char) : PyStr → List PyStr
  | [] => [[]]
  | c :: rest =>
    if c = sep then [] :: splitOnChar sep rest
    else
      match splitOnChar sep rest with
      | [] => [[c]]
      | r :: rs => (c :: r) :: rs

/-- Python `s.split(None)`: split on runs of whitespace, discarding empty
pieces. -/
def wsSplit : PyStr → List PyStr
  | [] => []
  | c :: rest =>
    if isSpaceChar c then wsSplit rest
    else (c :: rest.takeWhile (fun d => !isSpaceChar d)) ::
      wsSplit (rest.dropWhile (fun d => !isSpaceChar d))
termination_by s => s.length
decreasing_by
  all_goals
    have h := (rest.dropWhile_sublist (fun d => !isSpaceChar d)).length_le
    simp only [List.length_cons]
    omega

/-- Python `s.replace(pat, repl, 1)`: replace the first occurrence only. -/
def replaceFirst : PyStr → PyStr → PyStr → PyStr
  | [], pat, repl => if pat.isEmpty then repl else []
  | c :: rest, pat, repl =>
    if pat.isPrefixOf (c :: rest) then repl ++ (c :: rest).drop pat.length
    else c :: replaceFirst rest pat repl

/-! ## Python dynamic values -/

/-- One cut of a joint: the ordered list of router-pass offsets (in
increments) it consists of. -/
structure Cut where
  passes : List ℤ
deriving DecidableEq

/-- A dynamically-typed Python value, as loaded from a pickle stream or held
in an object attribute whose static type Python does not constrain. -/
inductive PVal where
  | pnone : PVal
  | pbool : Bool → PVal
  | pint : ℤ → PVal
  | pfloat : ℚ → PVal
  | pstr : PyStr → PVal
  | pcuts : List Cut → PVal
deriving DecidableEq

/-- Python truthiness (`if v:`). -/
def PVal.truthy : PVal → Bool
  | .pnone => false
  | .pbool b => b
  | .pint n => n ≠ 0
  | .pfloat q => q ≠ 0
  | .pstr s => !s.isEmpty
  | .pcuts cs => !cs.isEmpty

/-- Python `v == s` against a string literal: only equal strings compare
equal; values of other types compare unequal (no error). -/
def PVal.eqStr (v : PVal) (s : PyStr) : Bool :=
  match v with
  | .pstr t => t = s
  | _ => false

/-- Use a dynamic value where a `str` is required (e.g. the right operand of
string concatenation); any other type raises `TypeError`. -/
def PVal.asStr : PVal → Except String PyStr
  | .pstr s => .ok s
  | _ => .error ("TypeError: expected str")

/-- Use a dynamic value where Python would demand an integer index/count
(e.g. `range(n)`); `bool` is an `int` subtype in Python. -/
def PVal.asIndex : PVal → Except String ℤ
  | .pint n => .ok n
  | .pbool b => .ok (if b then 1 else 0)
  | _ => .error ("TypeError: expected int")

/-! ## Numeric helpers: rounding, truncation, decimal rendering -/

/-- Round half to even, the rounding of Python 3 `round()` and of
`decimal.Decimal.quantize` in its default context. -/
def roundHalfEven (q : ℚ) : ℤ :=
  let n := ⌊q⌋
  let r := q - n
  if r < 1/2 then n
  else if 1/2 < r then n + 1
  else if Even n then n else n + 1

/-- `utils.my_round`: `int(round(f))`; on the integral result of `round` the
`int()` cast is the identity. -/
def my_round (f : ℚ) : ℤ := roundHalfEven f

/-- Python `int()` applied to a float: truncation toward zero. -/
def ratTrunc (q : ℚ) : ℤ := if q < 0 then -(⌊-q⌋) else ⌊q⌋

/-- `Decimal.quantize`: round `q` to the nearest multiple of `quant`,
ties to even. -/
def quantizeHalfEven (q quant : ℚ) : ℚ := (roundHalfEven (q / quant) : ℚ) * quant

/-- `n` rendered in decimal and left-padded with `'0'` to `k` characters. -/
def padDigits (k : ℕ) (n : ℕ) : PyStr :=
  let d := natToChars n
  List.replicate (k - d.length) '0' ++ d

def dropTrailingZeros (s : PyStr) : PyStr :=
  (s.reverse.dropWhile (fun c => c = '0')).reverse

/-- Python `'%.3f' % q`: round to 3 decimal places and render with exactly 3
decimals.  (The source formats a C double; on the small decimal values
arising here the rational idealisation agrees with it.) -/
def renderFixed3 (q : ℚ) : PyStr :=
  let m := roundHalfEven (q * 1000)
  let sgn : PyStr := if m < 0 then ['-'] else []
  let a := m.natAbs
  sgn ++ natToChars (a / 1000) ++ '.' :: padDigits 3 (a % 1000)

/-- Python `'%g' % q`, modelled for the short decimal magnitudes produced by
`quantize` in `increments_to_string` (value representable with at most six
decimal places, magnitude below `10^6`): shortest decimal form, trailing
zeros stripped, no exponent notation.  (The source converts through a C
double; on those values the output agrees.) -/
def renderG (q : ℚ) : PyStr :=
  let sgn : PyStr := if q < 0 then ['-'] else []
  let a : ℚ := |q|
  let ip : ℕ := (⌊a⌋).toNat
  let f6 : ℤ := roundHalfEven ((a - (ip : ℚ)) * 1000000)
  let frac : PyStr := dropTrailingZeros (padDigits 6 f6.toNat)
  if frac.isEmpty then sgn ++ natToChars ip
  else sgn ++ natToChars ip ++ '.' :: frac

/-! ## `My_Fraction` (utils.py) -/

/-- `utils.My_Fraction`: a number `sign * (whole + numerator/denominator)`.
The separator is stored as the dynamic value the caller passed (the
constructor does not check its type). -/
structure My_Fraction where
  sign : ℤ
  whole : ℤ
  numerator : ℤ
  denominator : Option ℤ
  english_separator : PVal
deriving DecidableEq

/-- `My_Fraction.__init__`: the sign is extracted once from the signs of
`whole`/`numerator`; magnitudes are stored unsigned (`int(abs(...))`); the
denominator is stored exactly as passed (possibly `None`). -/
def My_Fraction.init (english_separator : PVal) (whole : ℤ) (numerator : ℤ)
    (denominator : Option ℤ) : My_Fraction :=
  { sign := if whole < 0 ∨ numerator < 0 then -1 else 1
    whole := |whole|
    numerator := |numerator|
    denominator := denominator
    english_separator := english_separator }

/-- `My_Fraction.reduce`: no-op when the denominator is unset or the
numerator is zero; otherwise carry `numerator // denominator` into `whole`
(Python `//` is floor division) and divide numerator and denominator by
their gcd.  Raises `ZeroDivisionError` on a zero denominator.  The divisions
by the gcd are Python float divisions with exact integral results (the gcd
divides both operands), re-cast to `int` on the next `reduce`; the model
performs the exact integer division directly. -/
def My_Fraction.reduce (f : My_Fraction) : Except String My_Fraction :=
  match f.denominator with
  | none => .ok f
  | some d =>
    if f.numerator = 0 then .ok f
    else if d = 0 then .error ("ZeroDivisionError: integer division or modulo by zero")
    else
      let dwhole := Int.fdiv f.numerator d
      let n2 := f.numerator - dwhole * d
      let g : ℤ := (Int.gcd n2 d : ℤ)
      .ok { f with whole := f.whole + dwhole
                   numerator := n2 / g
                   denominator := some (d / g) }

/-- `My_Fraction.to_string`: reduce first; start from `'-'` for a negative
sign; a positive whole part OVERWRITES that string (`s = '%d' % self.whole`
in the source) and is followed by the separator when a fraction part
follows; then the fraction part `numerator/denominator`; a zero value
renders as `"0"`.  Concatenating a non-string separator raises `TypeError`,
and rendering an unset (`None`) denominator under `'%d'` raises
`TypeError`. -/
def My_Fraction.to_string (f0 : My_Fraction) : Except String PyStr :=
  match f0.reduce with
  | .error e => .error e
  | .ok f =>
    let s0 : PyStr := if f.sign < 0 then ['-'] else []
    let midE : Except String PyStr :=
      if f.whole > 0 then
        if f.numerator ≠ 0 then
          match f.english_separator.asStr with
          | .error e => .error e
          | .ok sep => .ok (formatD f.whole ++ sep)
        else .ok (formatD f.whole)
      else .ok s0
    match midE with
    | .error e => .error e
    | .ok mid =>
      if f.numerator ≠ 0 then
        match f.denominator with
        | none => .error ("TypeError: %d format: a number is required, not NoneType")
        | some d => .ok (mid ++ formatD f.numerator ++ '/' :: formatD d)
      else if f.whole = 0 then .ok (['0'])
      else .ok mid

/-- `My_Fraction.set_from_string`: parse either a decimal string or a
`[whole][separator]numerator/denominator` fractional form, overwriting
`whole`, `numerator` and `denominator` (the stored sign is left untouched).
See `utils.py:110-157`. -/
def My_Fraction.set_from_string (f : My_Fraction) (s : PyStr) : Except String My_Fraction :=
  let errMsg := "Bad number specification"
  -- self.whole = 0; self.numerator = 0; self.denominator = 1
  if ('.' : Char) ∈ s then
    -- found a decimal point: digits before it are the whole part, digits
    -- after it become numerator over 10^(digit count), then reduce
    let wholeStr := stripWS (s.takeWhile (fun c => c ≠ '.'))
    let rest := stripWS ((s.dropWhile (fun c => c ≠ '.')).drop 1)
    let wholeE : Except String ℤ :=
      if wholeStr.isEmpty then .ok 0 else pyIntParse wholeStr
    match wholeE with
    | .error e => .error e
    | .ok w =>
      if rest.isEmpty then
        .ok { f with whole := w, numerator := 0, denominator := some 1 }
      else
        match pyIntParse rest with
        | .error e => .error e
        | .ok n =>
          let f2 : My_Fraction :=
            { f with whole := w, numerator := n
                     denominator := some ((10 : ℤ) ^ rest.length) }
          f2.reduce
  else
    -- no decimal point, so try fractional form; first replace the first
    -- occurrence of the separator (when it is not ' ') by a space
    let sE : Except String PyStr :=
      match f.english_separator with
      | .pstr t => if t = [' '] then .ok s else .ok (replaceFirst s t [' '])
      | _ => .error ("TypeError: replace() argument 1 must be str")
    match sE with
    | .error e => .error e
    | .ok s1 =>
      match splitOnChar '/' s1 with
      | [a, b] =>
        -- found a divisor
        let numPartE : Except String (ℤ × ℤ) :=
          match wsSplit a with
          | [x] =>
            match pyIntParse x with
            | .error e => .error e
            | .ok n => .ok (0, n)
          | [x, y] =>
            match pyIntParse x, pyIntParse y with
            | .ok w, .ok n => .ok (w, n)
            | .error e, _ => .error e
            | _, .error e => .error e
          | _ => .error (errMsg)
        match numPartE with
        | .error e => .error e
        | .ok (w, n) =>
          match wsSplit b with
          | [x] =>
            match pyIntParse x with
            | .error e => .error e
            | .ok d => .ok { f with whole := w, numerator := n, denominator := some d }
          | _ => .error (errMsg)
      | [a] =>
        -- no divisor, so must be a whole number
        match pyIntParse a with
        | .error e => .error e
        | .ok w => .ok { f with whole := w, numerator := 0, denominator := some 1 }
      | _ => .error (errMsg)

/-! ## `Units` (utils.py) -/

/-- `utils.VERSION`. -/
def VERSION : PyStr := ("0.9.4").toList

/-- `utils.Units`: converts between integer increments and the unit system in
use.  `english_separator` holds whatever value the caller passed (the
constructor does not check its type); `transl` is the externally injected
translator object (`None` when absent).  The class attribute `Units.quant`
is not a field: it is shared mutable class state, modelled by the explicit
`quant` arguments below. -/
structure Units where
  english_separator : PVal
  metric : Bool
  transl : Option (PyStr → PyStr)
  num_increments : ℚ
  increments_per_inch : ℚ

/-- `Units.mm_per_inch`. -/
def Units.mm_per_inch : ℚ := 254/10

/-- `Units.__init__` (without its write to the class attribute `Units.quant`,
which is `Units.initQuant` below): default `num_increments` is 1 for metric
and 32 for English; `increments_per_inch` is `25.4 * num_increments` for
metric and `num_increments` for English. -/
def Units.init (english_separator : PVal) (metric : Bool)
    (num_increments : Option ℚ) (transl : Option (PyStr → PyStr)) : Units :=
  let ni : ℚ :=
    match num_increments with
    | none => if metric then 1 else 32
    | some n => n
  { english_separator := english_separator
    metric := metric
    transl := transl
    num_increments := ni
    increments_per_inch := if metric then Units.mm_per_inch * ni else ni }

/-- The value `Units.__init__` assigns to the class attribute `Units.quant`:
`Decimal('0.01')` when metric, `Decimal('0.001')` otherwise. -/
def Units.initQuant (metric : Bool) : ℚ := if metric then 1/100 else 1/1000

/-- A numeric argument that may be a Python `int` or `float`
(`increments_to_string` branches on `isinstance(increments, float)`). -/
inductive PyNum where
  | pint : ℤ → PyNum
  | pfloat : ℚ → PyNum
deriving DecidableEq

def PyNum.toRat : PyNum → ℚ
  | .pint n => (n : ℚ)
  | .pfloat q => q

/-- `Units.units_string`: the unit suffix; uses the external translator
(`AttributeError` when it is `None`), except for the bare english `'"'`. -/
def Units.units_string (u : Units) (verbose withParens : Bool) : Except String PyStr :=
  let pre : PyStr := if withParens then (" (").toList else [' ']
  let post : PyStr := if withParens then [')'] else []
  if u.metric then
    match u.transl with
    | none => .error ("AttributeError: NoneType has no attribute tr")
    | some tr =>
      if verbose then .ok (pre ++ tr (("millimeters").toList) ++ post)
      else .ok (pre ++ tr (("mm").toList) ++ post)
  else
    if verbose then
      match u.transl with
      | none => .error ("AttributeError: NoneType has no attribute tr")
      | some tr => .ok (pre ++ tr (("inches").toList) ++ post)
    else if withParens then
      match u.transl with
      | none => .error ("AttributeError: NoneType has no attribute tr")
      | some tr => .ok (pre ++ tr (("in.").toList) ++ post)
    else .ok (['"'])

/-- The allowed fraction denominators of `Units.increments_to_string`;
membership is tested with Python `in`, i.e. numeric equality. -/
def allowDenoms : List ℚ := [1, 2, 4, 8, 16, 32, 64]

/-- `Units.increments_to_string` (utils.py:204-229).  `quant` is the current
value of the shared class attribute `Units.quant`.  Metric: the increment
divided by `num_increments`, quantized to `quant`, rendered with `'%g'`.
English: build `My_Fraction(sep, 0, numer, denom)` (scaling a float input by
the fixed precision 100); if after reduction the fraction has a non-zero
numerator and a denominator outside `allowDenoms`, fall back to a 3-decimal
string; otherwise render the fraction. -/
def Units.increments_to_string (quant : ℚ) (u : Units) (increments : PyNum)
    (with_units : Bool) : Except String PyStr :=
  let rE : Except String PyStr :=
    if u.metric then
      if u.num_increments = 0 then .error ("DivisionByZero")
      else .ok (renderG (quantizeHalfEven (increments.toRat / u.num_increments) quant))
    else
      let nd : ℤ × ℚ :=
        match increments with
        | .pfloat f => (ratTrunc (100 * f), 100 * u.increments_per_inch)
        | .pint n => (n, u.increments_per_inch)
      -- the denominator is passed to My_Fraction unconverted; reduce()
      -- truncates it with int()
      let frac0 := My_Fraction.init u.english_separator 0 nd.1 (some (ratTrunc nd.2))
      match frac0.reduce with
      | .error e => .error e
      | .ok frac =>
        if frac.numerator ≠ 0 ∧ ¬ ((frac.denominator.getD 0 : ℚ) ∈ allowDenoms) then
          if u.num_increments = 0 then .error ("ZeroDivisionError: float division by zero")
          else .ok (renderFixed3 (increments.toRat / u.num_increments))
        else
          frac.to_string
  match rE with
  | .error e => .error e
  | .ok r =>
    if with_units then
      match u.units_string false false with
      | .error e => .error e
      | .ok suffix => .ok (r ++ suffix)
    else .ok r

/-- `Units.string_to_float`: parse via a fresh
`My_Fraction(self.english_separator)` and return
`whole + numerator/denominator` (a Python float when a fraction part is
present). -/
def Units.string_to_float (u : Units) (s : PyStr) : Except String ℚ :=
  let f := My_Fraction.init u.english_separator 0 0 none
  match f.set_from_string s with
  | .error e => .error e
  | .ok f2 =>
    if f2.numerator > 0 then
      match f2.denominator with
      | none => .error ("TypeError: unsupported operand type(s) for /")
      | some d =>
        if d = 0 then .error ("ZeroDivisionError: float division by zero")
        else .ok ((f2.whole : ℚ) + (f2.numerator : ℚ) / (d : ℚ))
    else .ok ((f2.whole : ℚ))

/-- `Units.length_to_increments`: `v * num_increments`, rounded with
`my_round` when `as_integer`. -/
def Units.length_to_increments (u : Units) (v : ℚ) (as_integer : Bool) : ℚ :=
  let i := v * u.num_increments
  if as_integer then (my_round i : ℚ) else i

/-- `Units.string_to_increments`: `length_to_increments(string_to_float(s))`. -/
def Units.string_to_increments (u : Units) (s : PyStr) (as_integer : Bool) :
    Except String ℚ :=
  match u.string_to_float s with
  | .error e => .error e
  | .ok v => .ok (u.length_to_increments v as_integer)

/-! ## `Margins` (utils.py) -/

/-- `utils.Margins`: window margins, in increments. -/
structure Margins where
  sep : ℤ
  left : ℤ
  right : ℤ
  bottom : ℤ
  top : ℤ
deriving DecidableEq

/-- `Margins.__init__` (utils.py:310-334), translated branch by branch: note
that BOTH branches of the `sep` conditional assign `default`, so an explicit
`sep` argument is ignored; every other field takes its explicit argument
when supplied and `default` otherwise. -/
def Margins.init (default : ℤ) (sep left right bottom top : Option ℤ) : Margins :=
  { sep :=
      match sep with
      | none => default
      | some _ => default
    left :=
      match left with
      | none => default
      | some v => v
    right :=
      match right with
      | none => default
      | some v => v
    bottom :=
      match bottom with
      | none => default
      | some v => v
    top :=
      match top with
      | none => default
      | some v => v }

/-! ## The design serializer (serialize.py)

The collaborator classes `router.Router_Bit`, `router.Board` and the spacing
classes live in modules that are not part of the inspected sources; they are
modelled from the spec (section "Collaborator contracts consumed"): the bit
stores `(units, width, depth, angle)`; a board stores the bit's units and the
given width; a spacing object exposes `description` (whose first 4 characters
are the wire tag), `params`, `cuts` and `set_cuts`.  The Equal/Variable cut
computations themselves are external (`spacing.py`); `unserialize` takes them
as function parameters `computeEq`/`computeVar`. -/

/-- The externally injected configuration record (`config.debug` only gates
diagnostic printing, never control flow). -/
structure Config where
  debug : Bool
deriving DecidableEq

/-- Modelled from the spec: `router.Router_Bit(units, width, depth, angle)`
stores its constructor arguments. -/
structure Router_Bit where
  units : Units
  width : PVal
  depth : PVal
  angle : PVal

/-- Modelled from the spec: `router.Board(bit, width)` shares the bit (and
its units) and stores the given width; its cut lists are filled in later by
the spacing/GUI layer, and `active` marks participating boards. -/
structure Board where
  units : Units
  width : PVal
  active : Bool
  top_cuts : List Cut
  bottom_cuts : List Cut

/-- Modelled from the spec: construction `router.Board(bit, width)`. -/
def Board.make (bit : Router_Bit) (width : PVal) : Board :=
  { units := bit.units
    width := width
    active := false
    top_cuts := []
    bottom_cuts := [] }

/-- The spacing-strategy variants (spec section 3: variant over
{Equal, Variable, Edit}). -/
inductive SpVariant where
  | equal
  | variableSp
  | edit
deriving DecidableEq

/-- Modelled from the spec: a spacing object, exposing `description` (first 4
characters form the wire tag), the opaque parameter record `params`, and the
produced `cuts`. -/
structure Spacing where
  variant : SpVariant
  description : PyStr
  params : PVal
  cuts : PVal

/-- Modelled from the spec: `spacing.Edit_Spaced(bit, boards, config)`. -/
def Edit_Spaced (_bit : Router_Bit) (_boards : List Board) (_config : Config) : Spacing :=
  { variant := .edit, description := ("Edit").toList, params := .pnone, cuts := .pnone }

/-- Modelled from the spec: `spacing.Equally_Spaced(bit, boards, config)`. -/
def Equally_Spaced (_bit : Router_Bit) (_boards : List Board) (_config : Config) : Spacing :=
  { variant := .equal, description := ("Equally spaced").toList, params := .pnone, cuts := .pnone }

/-- Modelled from the spec: `spacing.Variable_Spaced(bit, boards, config)`. -/
def Variable_Spaced (_bit : Router_Bit) (_boards : List Board) (_config : Config) : Spacing :=
  { variant := .variableSp, description := ("Variable spaced").toList, params := .pnone, cuts := .pnone }

/-- Modelled from the spec: `sp.set_cuts(cuts)` on an Edit spacing assigns
the explicit cut list directly, with no recomputation. -/
def Spacing.set_cuts_explicit (sp : Spacing) (cuts : PVal) : Spacing :=
  { sp with cuts := cuts }

/-- Modelled from the spec: `sp.set_cuts()` on an Equal/Variable spacing
regenerates the cuts from the stored parameter record; the actual placement
algorithm is external and passed in as `compute`. -/
def Spacing.set_cuts_from_params (sp : Spacing)
    (compute : PVal -> Router_Bit -> List Board -> Config -> PVal)
    (bit : Router_Bit) (boards : List Board) (config : Config) : Spacing :=
  { sp with cuts := compute sp.params bit boards config }

/-- Re-tag a model rational as the Python number it stands for (integral
values were Python ints in the verified flows). -/
def ratToPVal (q : ℚ) : PVal :=
  if q.den = 1 then .pint q.num else .pfloat q

/-- `serialize.serialize`: dump, in order, the code version, the unit
metadata (`metric`, and for English units the increments-per-inch), the bit
geometry, the board count and shared board width, the 4-character spacing
tag, and the spacing payload (explicit cuts for `Edit`, the parameter record
otherwise).  `boards[0]` raises `IndexError` on an empty board list. -/
def serialize (bit : Router_Bit) (boards : List Board) (sp : Spacing)
    (_config : Config) : Except String (List PVal) :=
  match boards with
  | [] => .error ("IndexError: list index out of range")
  | b0 :: _ =>
    let units := bit.units
    let unitDump : List PVal :=
      if units.metric then [.pbool units.metric]
      else [.pbool units.metric, ratToPVal units.increments_per_inch]
    let sp_type := sp.description.take 4
    let payload : PVal := if sp_type = ("Edit").toList then sp.cuts else sp.params
    .ok ([.pstr VERSION] ++ unitDump ++
      [bit.width, bit.depth, bit.angle, .pint (boards.length : ℤ), b0.width,
       .pstr sp_type, payload])

/-- `serialize.unserialize` (serialize.py:69-113): load the fields in the
same order and rebuild the design.

* The units: for a metric stream the source calls `utils.Units(metric=True)`,
  which omits the required positional argument `english_separator` of
  `Units.__init__` and raises `TypeError`; for an English stream it calls
  `utils.Units(ipi)`, which passes the loaded increments-per-inch as the
  `english_separator` argument, leaving `num_increments` at its default 32.
* The bit and `board_count` boards sharing the bit and the loaded width.
* The spacing tag dispatch: `"Edit"` rebuilds an Edit spacing and assigns
  the loaded cuts; `"Equa"` rebuilds an Equal spacing; ANY other tag value
  rebuilds a Variable spacing; both of the latter load the parameter record
  and regenerate cuts from it.

Running out of stream (`u.load()` on a truncated pickle) raises an error. -/
def unserialize
    (computeEq computeVar : PVal -> Router_Bit -> List Board -> Config -> PVal)
    (s : List PVal) (config : Config) :
    Except String (Router_Bit × List Board × Spacing × PVal) :=
  match s with
  | _version :: metric :: rest =>
    let unitsE : Except String (Units × List PVal) :=
      if metric.truthy then
        -- units = utils.Units(metric=True): TypeError, missing english_separator
        .error ("TypeError: __init__() missing 1 required positional argument")
      else
        match rest with
        | ipi :: rest2 => .ok (Units.init ipi false none none, rest2)
        | [] => .error ("EOFError: Ran out of input")
    match unitsE with
    | .error e => .error e
    | .ok (units, rest2) =>
      match rest2 with
      | width :: depth :: angle :: rest3 =>
        let bit : Router_Bit :=
          { units := units, width := width, depth := depth, angle := angle }
        match rest3 with
        | nbv :: bwidth :: rest4 =>
          match nbv.asIndex with
          | .error e => .error e
          | .ok nb =>
            let boards := List.replicate nb.toNat (Board.make bit bwidth)
            match rest4 with
            | sp_type :: rest5 =>
              if sp_type.eqStr (("Edit").toList) then
                match rest5 with
                | cuts :: _ =>
                  let sp := (Edit_Spaced bit boards config).set_cuts_explicit cuts
                  .ok (bit, boards, sp, sp_type)
                | [] => .error ("EOFError: Ran out of input")
              else
                let sp0 :=
                  if sp_type.eqStr (("Equa").toList) then Equally_Spaced bit boards config
                  else Variable_Spaced bit boards config
                match rest5 with
                | params :: _ =>
                  let compute :=
                    if sp_type.eqStr (("Equa").toList) then computeEq else computeVar
                  let sp :=
                    ({ sp0 with params := params }).set_cuts_from_params
                      compute bit boards config
                  .ok (bit, boards, sp, sp_type)
                | [] => .error ("EOFError: Ran out of input")
            | [] => .error ("EOFError: Ran out of input")
        | _ => .error ("EOFError: Ran out of input")
      | _ => .error ("EOFError: Ran out of input")
  | _ => .error ("EOFError: Ran out of input")

/-! ## `print_table` (utils.py:377-455)

The report writer is modelled with an explicit file state and a write-failure
oracle `failAt` (the index of the write attempt that raises `IOError`, or
`none`).  Python exception semantics are preserved: an exception propagates
out of `print_table` immediately, and since the source uses no
`try`/`finally` or `with` block, no `fd.close()` runs on those paths. -/

/-- The state of the report file: whether the handle is open, how many write
attempts were made, and the successfully written strings. -/
structure FileState where
  opened : Bool
  written : ℕ
  lines : List PyStr
deriving DecidableEq

/-- `fd.write(s)`: fails if the oracle says this attempt raises. -/
def writeF (failAt : Option ℕ) (fs : FileState) (s : PyStr) : FileState × Option String :=
  if failAt = some fs.written then (fs, some ("IOError"))
  else ({ fs with written := fs.written + 1, lines := fs.lines ++ [s] }, none)

/-- Python `'%4s' % s` style right-justification in a field of width `k`. -/
def padLeftStr (k : ℕ) (s : PyStr) : PyStr :=
  List.replicate (k - s.length) ' ' ++ s

/-- The per-column format `form = ' %4s %9s '` applied to one
(pass, location) pair. -/
def formCell (a b : PyStr) : PyStr :=
  ' ' :: padLeftStr 4 a ++ ' ' :: padLeftStr 9 b ++ [' ']

/-- Python list indexing with negative-index wrap-around
(`c.passes[np - pi - 1]`). -/
def pyListGet (l : List ℤ) (i : ℤ) : Except String ℤ :=
  let j : ℤ := if i < 0 then (l.length : ℤ) + i else i
  if j < 0 then .error ("IndexError: list index out of range")
  else
    match l.get? j.toNat with
    | some x => .ok x
    | none => .error ("IndexError: list index out of range")

/-- The per-column loop state of `print_table`: `cut_index[icol]`,
`pass_index[icol]` and `total_passes[icol]`. -/
structure ColSt where
  cut_index : ℤ
  pass_index : ℕ
  total : ℕ
deriving DecidableEq

/-- One column's share of one loop iteration of `print_table`: if the column
still has an unconsumed cut, emit
`(total_passes)(label)` and `width - passes[np - pass_index - 1]` (formatted
through the units) and advance the cursor (into the previous cut once this
cut's passes are exhausted); otherwise emit the filler cells `"**"`, `"**"`. -/
def stepCol (quant : ℚ) (units : Units) (width : PVal) (cuts : List Cut)
    (lab : PyStr) (st : ColSt) : Except String (PyStr × PyStr × ColSt × Bool) :=
  if 0 ≤ st.cut_index then
    match cuts.get? st.cut_index.toNat with
    | none => .error ("IndexError: list index out of range")
    | some c =>
      let np := c.passes.length
      let total2 := st.total + 1
      let label := natToChars total2 ++ lab
      match pyListGet c.passes ((np : ℤ) - st.pass_index - 1) with
      | .error e => .error e
      | .ok p =>
        let dimIncE : Except String PyNum :=
          match width with
          | .pint w => .ok (.pint (w - p))
          | .pfloat w => .ok (.pfloat (w - (p : ℚ)))
          | _ => .error ("TypeError: unsupported operand type(s) for -")
        match dimIncE with
        | .error e => .error e
        | .ok dinc =>
          match Units.increments_to_string quant units dinc false with
          | .error e => .error e
          | .ok dim =>
            let st2 : ColSt :=
              if st.pass_index + 1 = np then
                { cut_index := st.cut_index - 1, pass_index := 0, total := total2 }
              else
                { st with pass_index := st.pass_index + 1, total := total2 }
            .ok (label, dim, st2, true)
  else
    .ok (("**").toList, ("**").toList, st, false)

/-- One full row of the print loop: visit every column in order, building the
output line and the updated column states; the flag records whether any
column still had a pass (`printing`). -/
def rowStep (quant : ℚ) (units : Units) (width : PVal) :
    List (List Cut × PyStr × ColSt) →
    Except String (PyStr × List (List Cut × PyStr × ColSt) × Bool)
  | [] => .ok ([], [], false)
  | (cuts, lab, st) :: others =>
    match stepCol quant units width cuts lab st with
    | .error e => .error e
    | .ok (label, dim, st2, pr) =>
      match rowStep quant units width others with
      | .error e => .error e
      | .ok (line, others2, pr2) =>
        .ok (formCell label dim ++ line, (cuts, lab, st2) :: others2, pr || pr2)

/-- The `while printing` loop of `print_table`: emit rows until every column
is out of passes.  The fuel passed by `print_table` (total number of passes
plus one) is shown below to be sufficient; exhausting it is reported as an
error so that it can never be mistaken for a normal return. -/
def tableLoop (failAt : Option ℕ) (quant : ℚ) (units : Units) (width : PVal) :
    ℕ → List (List Cut × PyStr × ColSt) → FileState → FileState × Option String
  | 0, _, fs => (fs, some ("model fuel exhausted"))
  | fuel + 1, cols, fs =>
    match rowStep quant units width cols with
    | .error e => (fs, some e)
    | .ok (line, cols2, pr) =>
      if pr then
        match writeF failAt fs (line ++ ['\n']) with
        | (fs2, some e) => (fs2, some e)
        | (fs2, none) => tableLoop failAt quant units width fuel cols2 fs2
      else (fs, none)

/-- The four board slots `boards[0] .. boards[3]` passed to `print_table`. -/
structure Boards4 where
  b0 : Board
  b1 : Board
  b2 : Board
  b3 : Board

/-- The column assembly of `print_table` (utils.py:383-400): board 0's bottom
cuts labeled `A`; if board 3 is active its top then bottom cuts take the next
two labels from `B,C,D,E,F`; likewise board 2; finally board 1's top cuts
take the next label.  Returns `(all_cuts, label_cuts)`. -/
def assembleColumns (boards : Boards4) : List (List Cut) × List PyStr :=
  let labels : List PyStr := [['B'], ['C'], ['D'], ['E'], ['F']]
  let acc0 : List (List Cut) × List PyStr × ℕ :=
    ([boards.b0.bottom_cuts], [['A']], 0)
  let acc1 : List (List Cut) × List PyStr × ℕ :=
    if boards.b3.active then
      (acc0.1 ++ [boards.b3.top_cuts, boards.b3.bottom_cuts],
       acc0.2.1 ++ [labels.getD acc0.2.2 [], labels.getD (acc0.2.2 + 1) []],
       acc0.2.2 + 2)
    else acc0
  let acc2 : List (List Cut) × List PyStr × ℕ :=
    if boards.b2.active then
      (acc1.1 ++ [boards.b2.top_cuts, boards.b2.bottom_cuts],
       acc1.2.1 ++ [labels.getD acc1.2.2 [], labels.getD (acc1.2.2 + 1) []],
       acc1.2.2 + 2)
    else acc1
  (acc2.1 ++ [boards.b1.top_cuts], acc2.2.1 ++ [labels.getD acc2.2.2 []])

/-- `utils.print_table(filename, boards, title)`: assemble the columns, write
the title and the header block, then run the synchronized reverse-iteration
print loop, and close the file.  `failAt` is the write-failure oracle and
`quant` the current value of the class attribute `Units.quant` (which the
call never modifies). -/
def print_table (failAt : Option ℕ) (quant : ℚ) (_filename : PyStr)
    (boards : Boards4) (title : PyStr) : FileState × Option String :=
  let fs0 : FileState := { opened := false, written := 0, lines := [] }
  match boards.b0.units.transl with
  | none =>
    -- transl.tr('Pass') with transl = None raises before the file is opened
    (fs0, some ("AttributeError: NoneType has no attribute tr"))
  | some tr =>
    let ac := assembleColumns boards
    let all_cuts := ac.1
    let label_cuts := ac.2
    let pass_lbl := tr (("Pass").toList)
    let location_lbl := tr (("Location").toList)
    let headerLine :=
      label_cuts.foldl (fun acc _ => acc ++ formCell pass_lbl location_lbl) []
    let divider := List.replicate headerLine.length '-' ++ ['\n']
    let bigLine := divider ++ headerLine ++ '\n' :: divider
    -- fd = open(filename, 'w')
    let fs1 : FileState := { opened := true, written := 0, lines := [] }
    match writeF failAt fs1 (title ++ ['\n']) with
    | (fs2, some e) => (fs2, some e)
    | (fs2, none) =>
      match writeF failAt fs2 bigLine with
      | (fs3, some e) => (fs3, some e)
      | (fs3, none) =>
        let width := boards.b0.width
        let units := boards.b0.units
        let cols :=
          (all_cuts.zip label_cuts).map
            (fun p => (p.1, p.2, ColSt.mk ((p.1.length : ℤ) - 1) 0 0))
        let fuel :=
          (all_cuts.map (fun cuts => (cuts.map (fun c => c.passes.length)).sum)).sum + 1
        match tableLoop failAt quant units width fuel cols fs3 with
        | (fs4, some e) => (fs4, some e)
        | (fs4, none) => ({ fs4 with opened := false }, none)

/-! ## Derived notions used to state the table properties -/

/-- The sequence of pass offsets a column emits, in emission order: the
columns are walked cut by cut from the LAST cut to the first, and inside
each cut from the LAST pass to the first -- i.e. the reverse of the
concatenated pass lists. -/
def seqOf (cuts : List Cut) : List ℤ :=
  ((cuts.map (fun c => c.passes)).flatten).reverse

/-- Total number of passes of one column. -/
def totalPasses (cuts : List Cut) : ℕ :=
  (cuts.map (fun c => c.passes.length)).sum

/-- The pass offsets a column has not yet emitted in state `st`. -/
def colRemaining (cuts : List Cut) (st : ColSt) : List ℤ :=
  if h : 0 ≤ st.cut_index ∧ st.cut_index.toNat < cuts.length then
    (cuts.get ⟨st.cut_index.toNat, h.2⟩).passes.reverse.drop st.pass_index ++
      seqOf (cuts.take st.cut_index.toNat)
  else []

/-- The structural invariant the per-column cursor maintains: the cursor
points at a real cut with a real pass position, or is exhausted at `-1`. -/
def ColInv (cuts : List Cut) (st : ColSt) : Prop :=
  (st.cut_index < (cuts.length : ℤ)) ∧ (-1 ≤ st.cut_index) ∧
  (∀ h : 0 ≤ st.cut_index ∧ st.cut_index.toNat < cuts.length,
    st.pass_index < (cuts.get ⟨st.cut_index.toNat, h.2⟩).passes.length) ∧
  (st.cut_index < 0 → st.pass_index = 0)

/-- Value of an `Except` that is known (from hypotheses) to be `ok`. -/
def okValue (e : Except String PyStr) : PyStr :=
  match e with
  | .ok s => s
  | .error _ => []

/-- The location string one table cell shows for the pass offset `z` of a
board of width `w`: `width - z` increments, formatted through the units. -/
def dimString (quant : ℚ) (units : Units) (w : ℤ) (z : ℤ) : PyStr :=
  okValue (Units.increments_to_string quant units (.pint (w - z)) false)

/-- The pair of cell strings column `(lab, r)` (label, emission sequence)
shows in data row `j`: its `(j+1)`-th pass while passes remain, the filler
cells `"**"`,`"**"` afterwards. -/
def cellAt (quant : ℚ) (units : Units) (w : ℤ) (j : ℕ) (lab : PyStr)
    (r : List ℤ) : PyStr × PyStr :=
  if j < r.length then (natToChars (j + 1) ++ lab, dimString quant units w (r.getD j 0))
  else (("**").toList, ("**").toList)

/-- One whole data row, rendered: every column's cell at row `j`, formatted
with `formCell` and concatenated, plus the final newline. -/
def specRow (quant : ℚ) (units : Units) (w : ℤ) (cols : List (PyStr × List ℤ))
    (j : ℕ) : PyStr :=
  ((cols.map (fun c => formCell (cellAt quant units w j c.1 c.2).1
    (cellAt quant units w j c.1 c.2).2)).flatten) ++ ['\n']

/-- All data rows: one row for each `j` below the maximum column length. -/
def specRows (quant : ℚ) (units : Units) (w : ℤ)
    (cols : List (PyStr × List ℤ)) : List PyStr :=
  (List.range ((cols.map (fun c => c.2.length)).foldr max 0)).map
    (specRow quant units w cols)

/-- Projection used in the statements: the increments-per-inch of the units
object a successful `unserialize` reconstructed. -/
def unserializedIpi (r : Except String (Router_Bit × List Board × Spacing × PVal)) :
    Except String ℚ :=
  match r with
  | .ok t => .ok t.1.units.increments_per_inch
  | .error e => .error e

/-- Projection used in the statements: the spacing object a successful
`unserialize` reconstructed, reduced to its comparable parts
`(variant, params, cuts)`. -/
def unserializedSpacing (r : Except String (Router_Bit × List Board × Spacing × PVal)) :
    Except String (SpVariant × PVal × PVal) :=
  match r with
  | .ok t => .ok (t.2.2.1.variant, t.2.2.1.params, t.2.2.1.cuts)
  | .error e => .error e

deriving instance DecidableEq for Except

/-- Whether an `Except` is an error. -/
def exceptIsError {α : Type} (r : Except String α) : Bool :=
  match r with
  | .error _ => true
  | .ok _ => false

/-- The simulation relation between one live column of the print loop and
its specification `(label, full emission sequence)`, at data row `j`: the
cursor state is valid, exactly the first `j` elements of the emission
sequence have been consumed, and `total_passes` counts them. -/
def ColRel (j : ℕ) (col : List Cut × PyStr × ColSt) (sp : PyStr × List ℤ) : Prop :=
  sp.1 = col.2.1 ∧ sp.2 = seqOf col.1 ∧ ColInv col.1 col.2.2 ∧
  colRemaining col.1 col.2.2 = sp.2.drop j ∧ col.2.2.total = min j sp.2.length ∧
  (∀ c ∈ col.1, c.passes ≠ [])

/-- The specification view of the live columns: for each assembled column,
its label and its full emission sequence. -/
def tableColsSpec (boards : Boards4) : List (PyStr × List ℤ) :=
  (((assembleColumns boards).1).zip ((assembleColumns boards).2)).map
    (fun p => (p.2, seqOf p.1))

/-- The number of data rows `print_table` writes: the largest per-column
total pass count. -/
def tableRowCount (boards : Boards4) : ℕ :=
  ((tableColsSpec boards).map (fun c => c.2.length)).foldr max 0

/-- The header block (`'-'` divider, `Pass`/`Location` captions, divider)
`print_table` writes as its second write. -/
def headerOf (tr : PyStr → PyStr) (boards : Boards4) : PyStr :=
  let headerLine := (assembleColumns boards).2.foldl
    (fun acc _ => acc ++ formCell (tr (("Pass").toList)) (tr (("Location").toList))) []
  let divider := List.replicate headerLine.length '-' ++ ['\n']
  divider ++ headerLine ++ '\n' :: divider

/-- A concrete English unit system with a live translator, used to witness
the `print_table` theorems. -/
def cbUnits : Units :=
  { english_separator := .pstr [' ']
    metric := false
    transl := some (fun s => s)
    num_increments := 32
    increments_per_inch := 32 }

/-- A concrete two-active-board configuration (boards 2 and 3 inactive). -/
def cb5Boards : Boards4 :=
  { b0 := { units := cbUnits, width := .pint 100, active := true,
            top_cuts := [], bottom_cuts := [⟨[3, 5]⟩] }
    b1 := { units := cbUnits, width := .pint 100, active := true,
            top_cuts := [⟨[7]⟩], bottom_cuts := [] }
    b2 := { units := cbUnits, width := .pint 100, active := false,
            top_cuts := [], bottom_cuts := [] }
    b3 := { units := cbUnits, width := .pint 100, active := false,
            top_cuts := [], bottom_cuts := [] } }

/-- A concrete configuration with board 3 active (a double-double joint
side), used to witness the assembly-order theorem. -/
def cb6Boards : Boards4 :=
  { b0 := { units := cbUnits, width := .pint 100, active := true,
            top_cuts := [], bottom_cuts := [⟨[1]⟩] }
    b1 := { units := cbUnits, width := .pint 100, active := true,
            top_cuts := [⟨[6]⟩], bottom_cuts := [] }
    b2 := { units := cbUnits, width := .pint 100, active := false,
            top_cuts := [], bottom_cuts := [] }
    b3 := { units := cbUnits, width := .pint 100, active := true,
            top_cuts := [⟨[2]⟩], bottom_cuts := [⟨[4]⟩] } }

/-! ## Theorems

### Decimal digit strings: rendering and parsing -/

theorem natDigitsAux_eq_digits : ∀ fuel n, n ≤ fuel → natDigitsAux fuel n = Nat.digits 10 n
  | 0, n, h => by
    interval_cases n
    simp [natDigitsAux]
  | f + 1, n, h => by
    simp only [natDigitsAux]
    by_cases hn : n = 0
    · simp [hn]
    · have hd : n / 10 < n := Nat.div_lt_self (Nat.pos_of_ne_zero hn) (by norm_num)
      rw [if_neg hn, natDigitsAux_eq_digits f (n / 10) (by omega),
        Nat.digits_def' (by norm_num : (1:ℕ) < 10) (Nat.pos_of_ne_zero hn)]

theorem digitChar_isDigit (d : ℕ) : isDigitChar (digitChar d) = true := by
  match d with
  | 0 => decide
  | 1 => decide
  | 2 => decide
  | 3 => decide
  | 4 => decide
  | 5 => decide
  | 6 => decide
  | 7 => decide
  | 8 => decide
  | n + 9 => exact (by decide : isDigitChar '9' = true)

theorem charToDigit_digitChar (d : ℕ) (h : d < 10) : charToDigit (digitChar d) = d := by
  interval_cases d <;> decide

theorem natToChars_all_digits (n : ℕ) : ∀ c ∈ natToChars n, isDigitChar c = true := by
  intro c hc
  unfold natToChars at hc
  by_cases hn : n = 0
  · simp [hn] at hc
    subst hc
    decide
  · rw [if_neg hn] at hc
    rw [List.mem_reverse, List.mem_map] at hc
    obtain ⟨d, _, rfl⟩ := hc
    exact digitChar_isDigit d

theorem natToChars_ne_nil (n : ℕ) : natToChars n ≠ [] := by
  unfold natToChars
  by_cases hn : n = 0
  · simp [hn]
  · rw [if_neg hn]
    intro hcon
    rw [List.reverse_eq_nil_iff, List.map_eq_nil_iff] at hcon
    have := natDigitsAux_eq_digits n n le_rfl
    rw [hcon] at this
    exact hn (Nat.digits_eq_nil_iff_eq_zero.mp this.symm)

theorem digitsVal_natToChars (n : ℕ) : digitsVal (natToChars n) = n := by
  unfold digitsVal natToChars
  by_cases hn : n = 0
  · simp [hn]
    decide
  · rw [if_neg hn, List.map_reverse, List.reverse_reverse,
      natDigitsAux_eq_digits n n le_rfl, List.map_map]
    have hmap : (Nat.digits 10 n).map (charToDigit ∘ digitChar) = Nat.digits 10 n := by
      rw [List.map_eq_iff]
      intro i
      rcases h : (Nat.digits 10 n)[i]? with _ | d
      · rfl
      · have hd : d ∈ Nat.digits 10 n := List.getElem?_mem h
        simp [Function.comp,
          charToDigit_digitChar d (Nat.digits_lt_base (by norm_num) hd)]
    rw [hmap, Nat.ofDigits_digits]

theorem digit_char_props (c : Char) (h : isDigitChar c = true) :
    isSpaceChar c = false ∧ c ≠ '-' ∧ c ≠ '+' ∧ c ≠ '.' ∧ c ≠ '/' := by
  simp only [isDigitChar, Bool.or_eq_true, decide_eq_true_eq] at h
  rcases h with ((((((((h | h) | h) | h) | h) | h) | h) | h) | h) | h <;> subst h <;>
    exact ⟨by decide, by decide, by decide, by decide, by decide⟩

theorem takeWhile_eq_self_of_all (p : Char → Bool) (l : PyStr)
    (h : ∀ c ∈ l, p c = true) : l.takeWhile p = l := by
  induction l with
  | nil => rfl
  | cons c rest ih =>
    rw [List.takeWhile_cons, if_pos (h c (by simp))]
    rw [ih (fun d hd => h d (by simp [hd]))]

theorem dropWhile_eq_nil_of_all (p : Char → Bool) (l : PyStr)
    (h : ∀ c ∈ l, p c = true) : l.dropWhile p = [] := by
  induction l with
  | nil => rfl
  | cons c rest ih =>
    rw [List.dropWhile_cons, if_pos (h c (by simp))]
    exact ih (fun d hd => h d (by simp [hd]))

theorem dropWhile_eq_self_of_head (p : Char → Bool) (l : PyStr)
    (h : ∀ c ∈ l.head?, p c = false) : l.dropWhile p = l := by
  cases l with
  | nil => rfl
  | cons c rest => rw [List.dropWhile_cons, if_neg (by simp [h c (by simp)])]

theorem stripWS_eq_self (l : PyStr) (h : ∀ c ∈ l, isSpaceChar c = false) :
    stripWS l = l := by
  unfold stripWS
  rw [dropWhile_eq_self_of_head _ _ (fun c hc => h c (List.mem_of_mem_head? hc)),
    dropWhile_eq_self_of_head _ _
      (fun c hc => h c (by
        have := List.mem_of_mem_head? hc
        rw [List.mem_reverse] at this
        exact this)),
    List.reverse_reverse]

theorem pyIntParse_digits (l : PyStr) (hne : l ≠ [])
    (hd : ∀ c ∈ l, isDigitChar c = true) : pyIntParse l = .ok ((digitsVal l : ℤ)) := by
  cases l with
  | nil => exact absurd rfl hne
  | cons c rest =>
    have hc := digit_char_props c (hd c (by simp))
    have hstrip : stripWS (c :: rest) = c :: rest :=
      stripWS_eq_self _ (fun x hx => (digit_char_props x (hd x hx)).1)
    unfold pyIntParse
    rw [hstrip]
    simp only [hc.2.1, hc.2.2.1, if_false, ite_false]
    rw [if_pos (by
      rw [List.all_eq_true]
      intro x hx
      exact hd x hx)]

theorem pyIntParse_natToChars (n : ℕ) : pyIntParse (natToChars n) = .ok ((n : ℤ)) := by
  rw [pyIntParse_digits (natToChars n) (natToChars_ne_nil n) (natToChars_all_digits n),
    digitsVal_natToChars]

theorem splitOnChar_of_not_mem (sep : Char) (l : PyStr) (h : sep ∉ l) :
    splitOnChar sep l = [l] := by
  induction l with
  | nil => rfl
  | cons c rest ih =>
    unfold splitOnChar
    rw [if_neg (by
      intro hcon
      exact h (by simp [hcon]))]
    rw [ih (fun hcon => h (by simp [hcon]))]

theorem splitOnChar_cons (sep c : Char) (rest : PyStr) :
    splitOnChar sep (c :: rest) =
      if c = sep then [] :: splitOnChar sep rest
      else
        match splitOnChar sep rest with
        | [] => [[c]]
        | r :: rs => (c :: r) :: rs := rfl

theorem splitOnChar_append (sep : Char) (a b : PyStr) (h : sep ∉ a) :
    splitOnChar sep (a ++ sep :: b) = a :: splitOnChar sep b := by
  induction a with
  | nil =>
    simp only [List.nil_append]
    rw [splitOnChar_cons, if_pos rfl]
  | cons c rest ih =>
    simp only [List.cons_append]
    rw [splitOnChar_cons]
    rw [if_neg (fun hcon => h (by simp [hcon]))]
    rw [ih (fun hcon => h (by simp [hcon]))]

theorem wsSplit_cons_space (b : PyStr) : wsSplit (' ' :: b) = wsSplit b := by
  rw [wsSplit]
  rw [if_pos (by decide)]

theorem wsSplit_nil : wsSplit [] = [] := by
  rw [wsSplit]

theorem wsSplit_of_all_nonspace (l : PyStr) (hne : l ≠ [])
    (h : ∀ c ∈ l, isSpaceChar c = false) : wsSplit l = [l] := by
  cases l with
  | nil => exact absurd rfl hne
  | cons c rest =>
    rw [wsSplit]
    rw [if_neg (by simp [h c (by simp)])]
    rw [takeWhile_eq_self_of_all _ rest (fun d hd => by simp [h d (by simp [hd])]),
      dropWhile_eq_nil_of_all _ rest (fun d hd => by simp [h d (by simp [hd])]),
      wsSplit_nil]

theorem takeWhile_append_of_stop (p : Char → Bool) (a b : PyStr) (x : Char)
    (ha : ∀ c ∈ a, p c = true) (hx : p x = false) :
    (a ++ x :: b).takeWhile p = a := by
  induction a with
  | nil => simp [List.takeWhile_cons, hx]
  | cons c rest ih =>
    simp only [List.cons_append, List.takeWhile_cons, ha c (by simp)]
    simp only [if_true]
    rw [ih (fun d hd => ha d (by simp [hd]))]

theorem dropWhile_append_of_stop (p : Char → Bool) (a b : PyStr) (x : Char)
    (ha : ∀ c ∈ a, p c = true) (hx : p x = false) :
    (a ++ x :: b).dropWhile p = x :: b := by
  induction a with
  | nil => simp [List.dropWhile_cons, hx]
  | cons c rest ih =>
    simp only [List.cons_append, List.dropWhile_cons, ha c (by simp)]
    simp only [if_true]
    exact ih (fun d hd => ha d (by simp [hd]))

theorem wsSplit_append (a b : PyStr) (hane : a ≠ [])
    (ha : ∀ c ∈ a, isSpaceChar c = false) :
    wsSplit (a ++ ' ' :: b) = a :: wsSplit b := by
  cases a with
  | nil => exact absurd rfl hane
  | cons c rest =>
    simp only [List.cons_append]
    rw [wsSplit]
    rw [if_neg (by simp [ha c (by simp)])]
    rw [takeWhile_append_of_stop _ rest b ' '
        (fun d hd => by simp [ha d (by simp [hd])]) (by decide),
      dropWhile_append_of_stop _ rest b ' '
        (fun d hd => by simp [ha d (by simp [hd])]) (by decide),
      wsSplit_cons_space]

/-! ### Claim theorems: C10, C2, C1 -/

/-- C10: for every call to the `Margins` constructor, the resulting `sep`
field equals the `default` argument regardless of whether an explicit `sep`
argument was supplied (both branches of the source's conditional assign
`default`), while each of `left`, `right`, `bottom`, `top` equals its
explicit argument when supplied and `default` otherwise. -/
theorem margins_init_fields (default : ℤ) (sep left right bottom top : Option ℤ) :
    (Margins.init default sep left right bottom top).sep = default ∧
    (Margins.init default sep left right bottom top).left = left.getD default ∧
    (Margins.init default sep left right bottom top).right = right.getD default ∧
    (Margins.init default sep left right bottom top).bottom = bottom.getD default ∧
    (Margins.init default sep left right bottom top).top = top.getD default := by
  cases sep <;> cases left <;> cases right <;> cases bottom <;> cases top <;>
    exact ⟨rfl, rfl, rfl, rfl, rfl⟩

/-- C2 (the code drops the claimed `'-'` prefix whenever the whole part is
positive): the fraction built from `whole = -3` has `sign = -1`, `whole = 3`,
`numerator = 0` -- a negative, non-zero value -- yet `to_string` returns
`"3"`, which does not begin with `'-'` (the assignment `s = '%d' % whole`
overwrites the sign prefix).  The claim's own cited instance
`(sign = -1, whole = 0, numerator = 3, denominator = 4) -> "-3/4"` does
hold, because there the whole part is zero. -/
theorem to_string_drops_sign_when_whole_positive :
    (My_Fraction.init (.pstr [' ']) (-3) 0 none).sign = -1 ∧
    (My_Fraction.init (.pstr [' ']) (-3) 0 none).whole = 3 ∧
    (My_Fraction.init (.pstr [' ']) (-3) 0 none).numerator = 0 ∧
    (My_Fraction.init (.pstr [' ']) (-3) 0 none).to_string = .ok (("3").toList) ∧
    (My_Fraction.init (.pstr [' ']) 0 (-3) (some 4)).sign = -1 ∧
    (My_Fraction.init (.pstr [' ']) 0 (-3) (some 4)).to_string = .ok (("-3/4").toList) := by
  decide

/-- C1 (the code does not restore the stored increments-per-inch): an English
design built with 64 increments per inch serializes to a stream whose third
field is the stored value `64`; `unserialize` then calls `utils.Units(ipi)`,
which passes the loaded `64` into the `english_separator` parameter of
`Units.__init__`, so the reconstructed unit system keeps the default 32
increments per inch instead of 64.  For a metric stream, `unserialize` calls
`utils.Units(metric=True)`, which omits the required positional argument
`english_separator` and raises `TypeError`, so no metric `UnitSystem` is
reconstructed at all. -/
theorem unserialize_ignores_stored_ipi :
    (serialize
        { units := Units.init (.pstr [' ']) false (some 64) none
          width := .pint 8, depth := .pint 16, angle := .pint 0 }
        [Board.make
            { units := Units.init (.pstr [' ']) false (some 64) none
              width := .pint 8, depth := .pint 16, angle := .pint 0 } (.pint 256),
         Board.make
            { units := Units.init (.pstr [' ']) false (some 64) none
              width := .pint 8, depth := .pint 16, angle := .pint 0 } (.pint 256)]
        { variant := .equal, description := ("Equally spaced").toList
          params := .pint 7, cuts := .pnone }
        { debug := false } =
      .ok [.pstr VERSION, .pbool false, .pint 64, .pint 8, .pint 16, .pint 0,
           .pint 2, .pint 256, .pstr (("Equa").toList), .pint 7]) ∧
    unserializedIpi
      (unserialize (fun _ _ _ _ => .pnone) (fun _ _ _ _ => .pnone)
        [.pstr VERSION, .pbool false, .pint 64, .pint 8, .pint 16, .pint 0,
         .pint 2, .pint 256, .pstr (("Equa").toList), .pint 7]
        { debug := false }) = .ok 32 ∧
    (32 : ℚ) ≠ 64 ∧
    (serialize
        { units := Units.init (.pstr [' ']) true none none
          width := .pint 8, depth := .pint 16, angle := .pint 0 }
        [Board.make
            { units := Units.init (.pstr [' ']) true none none
              width := .pint 8, depth := .pint 16, angle := .pint 0 } (.pint 256)]
        { variant := .equal, description := ("Equally spaced").toList
          params := .pint 7, cuts := .pnone }
        { debug := false } =
      .ok [.pstr VERSION, .pbool true, .pint 8, .pint 16, .pint 0,
           .pint 1, .pint 256, .pstr (("Equa").toList), .pint 7]) ∧
    exceptIsError
      (unserialize (fun _ _ _ _ => .pnone) (fun _ _ _ _ => .pnone)
        [.pstr VERSION, .pbool true, .pint 8, .pint 16, .pint 0,
         .pint 1, .pint 256, .pstr (("Equa").toList), .pint 7]
        { debug := false }) = true := by
  with_unfolding_all decide

/-! ### `reduce`: characterization and idempotence (C7) -/

theorem fdiv_neg_neg (a b : ℤ) : Int.fdiv (-a) (-b) = Int.fdiv a b := by
  match a, b with
  | .ofNat 0, .ofNat 0 => rfl
  | .ofNat 0, .ofNat (n+1) => rfl
  | .ofNat 0, .negSucc n => rfl
  | .ofNat (m+1), .ofNat 0 =>
    show (Int.negSucc m).fdiv 0 = (Int.ofNat (m+1)).fdiv 0
    rw [Int.fdiv_zero, Int.fdiv_zero]
  | .ofNat (m+1), .ofNat (n+1) => rfl
  | .ofNat (m+1), .negSucc n => rfl
  | .negSucc m, .ofNat 0 =>
    show (Int.ofNat (m+1)).fdiv 0 = (Int.negSucc m).fdiv 0
    rw [Int.fdiv_zero, Int.fdiv_zero]
  | .negSucc m, .ofNat (n+1) => rfl
  | .negSucc m, .negSucc n => rfl

theorem fdiv_eq_zero_of_nonneg_lt (a b : ℤ) (h0 : 0 ≤ a) (h1 : a < b) :
    Int.fdiv a b = 0 := by
  rw [Int.fdiv_eq_ediv a (by omega)]
  exact Int.ediv_eq_zero_of_lt h0 h1

theorem fdiv_eq_zero_of_neg_between (a b : ℤ) (h1 : b < a) (h2 : a < 0) :
    Int.fdiv a b = 0 := by
  rw [← fdiv_neg_neg a b]
  rw [Int.fdiv_eq_ediv (-a) (by omega)]
  exact Int.ediv_eq_zero_of_lt (by omega) (by omega)

/-- The carried-out remainder `numerator - (numerator // d) * d` of `reduce`
lies in `[0, d)` for a positive denominator and in `(d, 0]` for a negative
one. -/
theorem reduce_remainder_bounds (n d : ℤ) (hd : d ≠ 0) :
    (0 < d → 0 ≤ n - Int.fdiv n d * d ∧ n - Int.fdiv n d * d < d) ∧
    (d < 0 → d < n - Int.fdiv n d * d ∧ n - Int.fdiv n d * d ≤ 0) := by
  constructor
  · intro hpos
    rw [Int.fdiv_eq_ediv n (by omega)]
    have h1 := Int.emod_nonneg n hd
    have h2 := Int.emod_lt_of_pos n hpos
    rw [Int.emod_def] at h1 h2
    constructor <;> nlinarith [h1, h2]
  · intro hneg
    rw [← fdiv_neg_neg n d, Int.fdiv_eq_ediv (-n) (by omega)]
    have h1 := Int.emod_nonneg (-n) (by omega : -d ≠ 0)
    have h2 := Int.emod_lt_of_pos (-n) (by omega : 0 < -d)
    rw [Int.emod_def] at h1 h2
    constructor <;> nlinarith [h1, h2]

/-- `reduce` on the main path: the denominator is present and non-zero and
the numerator is non-zero. -/
theorem reduce_eq_ok_main (f : My_Fraction) (d : ℤ) (hden : f.denominator = some d)
    (hnum : f.numerator ≠ 0) (hd : d ≠ 0) :
    f.reduce = .ok
      { f with
        whole := f.whole + Int.fdiv f.numerator d
        numerator := (f.numerator - Int.fdiv f.numerator d * d) /
          ((Int.gcd (f.numerator - Int.fdiv f.numerator d * d) d : ℕ) : ℤ)
        denominator := some (d /
          ((Int.gcd (f.numerator - Int.fdiv f.numerator d * d) d : ℕ) : ℤ)) } := by
  unfold My_Fraction.reduce
  rw [hden]
  simp only [if_neg hnum, if_neg hd]

/-- `reduce` is a no-op when the denominator is unset or the numerator is
zero. -/
theorem reduce_noop (f : My_Fraction)
    (h : f.denominator = none ∨ f.numerator = 0) : f.reduce = .ok f := by
  unfold My_Fraction.reduce
  rcases h with h | h
  · rw [h]
  · cases hden : f.denominator with
    | none => rfl
    | some d => simp only [if_pos h]

/-- The fraction produced by a successful `reduce` is a fixed point of
`reduce`. -/
theorem reduce_fixed (f g : My_Fraction) (h : f.reduce = .ok g) :
    g.reduce = .ok g := by
  rcases hden : f.denominator with _ | d
  · rw [reduce_noop f (Or.inl hden)] at h
    cases h
    exact reduce_noop f (Or.inl hden)
  · by_cases hnum : f.numerator = 0
    · rw [reduce_noop f (Or.inr hnum)] at h
      cases h
      exact reduce_noop f (Or.inr hnum)
    · by_cases hd : d = 0
      · unfold My_Fraction.reduce at h
        rw [hden] at h
        simp only [if_neg hnum, if_pos hd] at h
        exact absurd h (by simp)
      · rw [reduce_eq_ok_main f d hden hnum hd] at h
        set n2 := f.numerator - Int.fdiv f.numerator d * d with hn2
        set g0 : ℤ := ((Int.gcd n2 d : ℕ) : ℤ) with hg0
        have hg0pos : 0 < g0 := by
          rw [hg0]
          exact_mod_cast Int.gcd_pos_iff.mpr (Or.inr hd)
        have hdvd_n2 : g0 ∣ n2 := Int.gcd_dvd_left
        have hdvd_d : g0 ∣ d := Int.gcd_dvd_right
        have hn2back : n2 / g0 * g0 = n2 := Int.ediv_mul_cancel hdvd_n2
        have hdback : d / g0 * g0 = d := Int.ediv_mul_cancel hdvd_d
        have hdq : d / g0 ≠ 0 := by
          intro hcon
          rw [hcon, zero_mul] at hdback
          exact hd hdback.symm
        cases h
        by_cases hq : n2 / g0 = 0
        · exact reduce_noop _ (Or.inr hq)
        · have hn2ne : n2 ≠ 0 := by
            intro hcon
            rw [hcon, Int.zero_ediv] at hq
            exact hq rfl
          have hbounds := reduce_remainder_bounds f.numerator d hd
          rw [← hn2] at hbounds
          have hfdiv0 : Int.fdiv (n2 / g0) (d / g0) = 0 := by
            rcases lt_or_gt_of_ne hd with hneg | hpos
            · have hb := hbounds.2 hneg
              have h2 : n2 / g0 < 0 := Int.ediv_neg' (by omega) hg0pos
              have h1 : d / g0 < n2 / g0 := by
                by_contra hcon
                push_neg at hcon
                have hmul := mul_le_mul_of_nonneg_right hcon (le_of_lt hg0pos)
                rw [hn2back, hdback] at hmul
                omega
              exact fdiv_eq_zero_of_neg_between _ _ h1 h2
            · have hb := hbounds.1 hpos
              have h1 : 0 ≤ n2 / g0 := Int.ediv_nonneg (by omega) (by omega)
              have h2 : n2 / g0 < d / g0 := by
                by_contra hcon
                push_neg at hcon
                have hmul := mul_le_mul_of_nonneg_right hcon (le_of_lt hg0pos)
                rw [hn2back, hdback] at hmul
                omega
              exact fdiv_eq_zero_of_nonneg_lt _ _ h1 h2
          have hgcd1 : Int.gcd (n2 / g0) (d / g0) = 1 := by
            rw [hg0]
            exact Int.gcd_div_gcd_div_gcd (Int.gcd_pos_iff.mpr (Or.inr hd))
          rw [reduce_eq_ok_main _ (d / g0) rfl hq hdq]
          simp only [hfdiv0, zero_mul, sub_zero, add_zero, hgcd1, Nat.cast_one,
            Int.ediv_one]

/-- C7: `My_Fraction.reduce` is idempotent -- applying it twice yields the
same `whole`, `numerator` and `denominator` as applying it once (with the
Python exceptions threaded through `Except.bind`, an erroring first
application short-circuits identically) -- and it is a no-op when the
denominator is unset or the numerator is zero. -/
theorem reduce_idem_claim :
    (∀ f : My_Fraction, Except.bind f.reduce My_Fraction.reduce = f.reduce) ∧
    (∀ f : My_Fraction, f.denominator = none ∨ f.numerator = 0 →
      f.reduce = Except.ok f) := by
  constructor
  · intro f
    rcases hh : f.reduce with e | g
    · rfl
    · exact reduce_fixed f g hh
  · exact reduce_noop

/-- Witness for C7 at concrete inputs: `1 + 6/4` reduces (twice = once), and
the fraction with unset denominator is untouched. -/
theorem reduce_idem_claim_witness :
    (Except.bind (My_Fraction.init (.pstr [' ']) 1 6 (some 4)).reduce
        My_Fraction.reduce =
      (My_Fraction.init (.pstr [' ']) 1 6 (some 4)).reduce) ∧
    ((My_Fraction.init (.pstr [' ']) 2 0 none).denominator = none ∨
      (My_Fraction.init (.pstr [' ']) 2 0 none).numerator = 0) ∧
    (My_Fraction.init (.pstr [' ']) 2 0 none).reduce =
      Except.ok (My_Fraction.init (.pstr [' ']) 2 0 none) :=
  ⟨reduce_idem_claim.1 _, by decide, reduce_idem_claim.2 _ (by decide)⟩

/-- C4: for every spacing tag other than `"Edit"` and `"Equa"` -- including
values that are not even strings -- `unserialize` on a well-formed English
stream does not raise: it builds the Variable-spacing variant, stores the
loaded parameter record in it, and regenerates its cuts from those
parameters (`sp.set_cuts()` via the external Variable placement
computation).  (Metric streams never reach the tag dispatch: they raise
`TypeError` already at the units step, see the C1 theorem.) -/
theorem unserialize_unknown_tag_defaults_to_variable
    (computeEq computeVar : PVal → Router_Bit → List Board → Config → PVal)
    (version ipi width depth angle bwidth params tag : PVal) (nb : ℤ)
    (config : Config)
    (hedit : tag.eqStr (("Edit").toList) = false)
    (hequa : tag.eqStr (("Equa").toList) = false) :
    unserialize computeEq computeVar
      [version, .pbool false, ipi, width, depth, angle, .pint nb, bwidth, tag, params]
      config =
    .ok
      ({ units := Units.init ipi false none none
         width := width, depth := depth, angle := angle },
       List.replicate nb.toNat
         (Board.make
           { units := Units.init ipi false none none
             width := width, depth := depth, angle := angle } bwidth),
       { variant := .variableSp
         description := ("Variable spaced").toList
         params := params
         cuts := computeVar params
           { units := Units.init ipi false none none
             width := width, depth := depth, angle := angle }
           (List.replicate nb.toNat
             (Board.make
               { units := Units.init ipi false none none
                 width := width, depth := depth, angle := angle } bwidth))
           config },
       tag) := by
  unfold unserialize
  simp only [PVal.truthy, Bool.false_eq_true, if_false, PVal.asIndex, hedit, hequa,
    Spacing.set_cuts_from_params, Variable_Spaced]

/-- Witness for C4: a stream carrying the unrecognized tag `"Xyzw"` is
accepted and dispatched to the Variable variant. -/
theorem unserialize_unknown_tag_witness :
    unserialize (fun p _ _ _ => p) (fun p _ _ _ => p)
      [.pstr VERSION, .pbool false, .pint 32, .pint 8, .pint 16, .pint 0,
       .pint 2, .pint 256, .pstr (("Xyzw").toList), .pint 7]
      { debug := false } =
    .ok
      ({ units := Units.init (.pint 32) false none none
         width := .pint 8, depth := .pint 16, angle := .pint 0 },
       List.replicate (2 : ℤ).toNat
         (Board.make
           { units := Units.init (.pint 32) false none none
             width := .pint 8, depth := .pint 16, angle := .pint 0 } (.pint 256)),
       { variant := .variableSp
         description := ("Variable spaced").toList
         params := .pint 7
         cuts := (fun (p : PVal) (_ : Router_Bit) (_ : List Board) (_ : Config) => p)
           (.pint 7)
           { units := Units.init (.pint 32) false none none
             width := .pint 8, depth := .pint 16, angle := .pint 0 }
           (List.replicate (2 : ℤ).toNat
             (Board.make
               { units := Units.init (.pint 32) false none none
                 width := .pint 8, depth := .pint 16, angle := .pint 0 } (.pint 256)))
           { debug := false } },
       .pstr (("Xyzw").toList)) :=
  unserialize_unknown_tag_defaults_to_variable (fun p _ _ _ => p) (fun p _ _ _ => p)
    (.pstr VERSION) (.pint 32) (.pint 8) (.pint 16) (.pint 0) (.pint 256) (.pint 7)
    (.pstr (("Xyzw").toList)) 2 { debug := false } (by decide) (by decide)

/-- C8 counterexample: `Units.__init__` reassigns the shared class attribute
`Units.quant` on every construction, so instances are NOT independent
values.  A metric unit system with 3 increments per mm formats the increment
`1` as `"0.33"` under the quantum its own construction installed
(`0.01`), but after any English `Units` is constructed the class attribute
becomes `0.001` and the SAME instance and argument format as `"0.333"`. -/
theorem metric_format_depends_on_shared_quant :
    Units.initQuant true = 1/100 ∧
    Units.initQuant false = 1/1000 ∧
    Units.increments_to_string (Units.initQuant true)
      (Units.init (.pstr [' ']) true (some 3) none) (.pint 1) false =
      .ok (("0.33").toList) ∧
    Units.increments_to_string (Units.initQuant false)
      (Units.init (.pstr [' ']) true (some 3) none) (.pint 1) false =
      .ok (("0.333").toList) ∧
    Units.increments_to_string (Units.initQuant true)
      (Units.init (.pstr [' ']) true (some 3) none) (.pint 1) false ≠
    Units.increments_to_string (Units.initQuant false)
      (Units.init (.pstr [' ']) true (some 3) none) (.pint 1) false := by
  set_option maxRecDepth 4000 in with_unfolding_all decide

/-- C8 amended: the interference is confined to the metric formatting path.
For every English (non-metric) `Units` instance, `increments_to_string`
never reads the shared `Units.quant`, so its output is unchanged by the
construction of any other `Units` instance. -/
theorem english_format_ignores_shared_quant (u : Units) (hm : u.metric = false)
    (q1 q2 : ℚ) (x : PyNum) (wu : Bool) :
    Units.increments_to_string q1 u x wu = Units.increments_to_string q2 u x wu := by
  unfold Units.increments_to_string
  simp only [hm, Bool.false_eq_true, if_false]

/-- Witness for the amended C8 at a concrete English unit system: the output
for 48 increments is the same under the two quanta the two constructors can
install. -/
theorem english_format_ignores_shared_quant_witness :
    (Units.init (.pstr [' ']) false (some 32) none).metric = false ∧
    Units.increments_to_string (Units.initQuant true)
      (Units.init (.pstr [' ']) false (some 32) none) (.pint 48) false =
    Units.increments_to_string (Units.initQuant false)
      (Units.init (.pstr [' ']) false (some 32) none) (.pint 48) false :=
  ⟨by decide,
    english_format_ignores_shared_quant (Units.init (.pstr [' ']) false (some 32) none)
      (by decide) (Units.initQuant true) (Units.initQuant false) (.pint 48) false⟩

/-! ### Support for the English round-trip (C3) -/

theorem ratTrunc_intCast (n : ℤ) : ratTrunc ((n : ℤ) : ℚ) = n := by
  unfold ratTrunc
  by_cases h : (n : ℚ) < 0
  · rw [if_pos h, ← Int.cast_neg, Int.floor_intCast, neg_neg]
  · rw [if_neg h, Int.floor_intCast]

theorem roundHalfEven_intCast (n : ℤ) : roundHalfEven ((n : ℤ) : ℚ) = n := by
  unfold roundHalfEven
  rw [Int.floor_intCast]
  rw [if_pos (by norm_num)]

theorem my_round_intCast (n : ℤ) : my_round ((n : ℤ) : ℚ) = n :=
  roundHalfEven_intCast n

theorem cast_mem_allowDenoms (n : ℤ) :
    ((n : ℚ) ∈ allowDenoms) ↔ n ∈ ([1, 2, 4, 8, 16, 32, 64] : List ℤ) := by
  unfold allowDenoms
  simp only [List.mem_cons, List.not_mem_nil, or_false]
  constructor
  · intro h
    rcases h with h | h | h | h | h | h | h
    all_goals
      norm_cast at h
      simp [h]
  · intro h
    rcases h with h | h | h | h | h | h | h
    all_goals
      subst h
      norm_num

theorem gcd_emod_left (v d : ℤ) : Int.gcd (v % d) d = Int.gcd v d := by
  have hv : v = v % d + d * (v / d) := by
    rw [Int.emod_def]
    ring
  apply Nat.dvd_antisymm
  · rw [← Int.natCast_dvd_natCast]
    apply Int.dvd_gcd
    · calc ((Int.gcd (v % d) d : ℕ) : ℤ) ∣ v % d + d * (v / d) :=
            Dvd.dvd.add Int.gcd_dvd_left (Dvd.dvd.mul_right Int.gcd_dvd_right _)
        _ = v := hv.symm
    · exact Int.gcd_dvd_right
  · rw [← Int.natCast_dvd_natCast]
    apply Int.dvd_gcd
    · have : ((Int.gcd v d : ℕ) : ℤ) ∣ v - d * (v / d) :=
        Dvd.dvd.sub Int.gcd_dvd_left (Dvd.dvd.mul_right Int.gcd_dvd_right _)
      rw [← Int.emod_def] at this
      exact this
    · exact Int.gcd_dvd_right

theorem formatD_nonneg (k : ℤ) (h : 0 ≤ k) : formatD k = natToChars k.toNat := by
  unfold formatD
  rw [if_neg (not_lt.mpr h)]

theorem not_mem_of_digits (l : PyStr) (hall : ∀ c ∈ l, isDigitChar c = true)
    (c : Char) (hc : isDigitChar c = false) : c ∉ l := by
  intro hmem
  rw [hall c hmem] at hc
  cases hc

theorem set_from_string_wnd (f : My_Fraction)
    (hsep : f.english_separator = .pstr [' ']) (W N D : ℕ) :
    f.set_from_string ((natToChars W ++ ' ' :: natToChars N) ++ '/' :: natToChars D) =
      .ok { f with whole := (W : ℤ), numerator := (N : ℤ),
                   denominator := some ((D : ℤ)) } := by
  have hW := natToChars_all_digits W
  have hN := natToChars_all_digits N
  have hD := natToChars_all_digits D
  have hdot : ('.' : Char) ∉ (natToChars W ++ ' ' :: natToChars N) ++ '/' :: natToChars D := by
    simp only [List.mem_append, List.mem_cons]
    push_neg
    exact ⟨⟨not_mem_of_digits _ hW _ (by decide),
      by decide, not_mem_of_digits _ hN _ (by decide)⟩,
      by decide, not_mem_of_digits _ hD _ (by decide)⟩
  have hslashA : ('/' : Char) ∉ natToChars W ++ ' ' :: natToChars N := by
    simp only [List.mem_append, List.mem_cons]
    push_neg
    exact ⟨not_mem_of_digits _ hW _ (by decide),
      by decide, not_mem_of_digits _ hN _ (by decide)⟩
  have hslashD : ('/' : Char) ∉ natToChars D :=
    not_mem_of_digits _ hD _ (by decide)
  have hWns : ∀ c ∈ natToChars W, isSpaceChar c = false :=
    fun c hc => (digit_char_props c (hW c hc)).1
  have hNns : ∀ c ∈ natToChars N, isSpaceChar c = false :=
    fun c hc => (digit_char_props c (hN c hc)).1
  have hDns : ∀ c ∈ natToChars D, isSpaceChar c = false :=
    fun c hc => (digit_char_props c (hD c hc)).1
  unfold My_Fraction.set_from_string
  rw [if_neg hdot, hsep]
  simp only [if_true,
    splitOnChar_append '/' (natToChars W ++ ' ' :: natToChars N) (natToChars D) hslashA,
    splitOnChar_of_not_mem '/' (natToChars D) hslashD,
    wsSplit_append (natToChars W) (natToChars N) (natToChars_ne_nil W) hWns,
    wsSplit_of_all_nonspace (natToChars N) (natToChars_ne_nil N) hNns,
    wsSplit_of_all_nonspace (natToChars D) (natToChars_ne_nil D) hDns,
    pyIntParse_natToChars]

theorem set_from_string_nd (f : My_Fraction)
    (hsep : f.english_separator = .pstr [' ']) (N D : ℕ) :
    f.set_from_string (natToChars N ++ '/' :: natToChars D) =
      .ok { f with whole := 0, numerator := (N : ℤ),
                   denominator := some ((D : ℤ)) } := by
  have hN := natToChars_all_digits N
  have hD := natToChars_all_digits D
  have hdot : ('.' : Char) ∉ natToChars N ++ '/' :: natToChars D := by
    simp only [List.mem_append, List.mem_cons]
    push_neg
    exact ⟨not_mem_of_digits _ hN _ (by decide),
      by decide, not_mem_of_digits _ hD _ (by decide)⟩
  have hslashN : ('/' : Char) ∉ natToChars N :=
    not_mem_of_digits _ hN _ (by decide)
  have hslashD : ('/' : Char) ∉ natToChars D :=
    not_mem_of_digits _ hD _ (by decide)
  have hNns : ∀ c ∈ natToChars N, isSpaceChar c = false :=
    fun c hc => (digit_char_props c (hN c hc)).1
  have hDns : ∀ c ∈ natToChars D, isSpaceChar c = false :=
    fun c hc => (digit_char_props c (hD c hc)).1
  unfold My_Fraction.set_from_string
  rw [if_neg hdot, hsep]
  simp only [if_true,
    splitOnChar_append '/' (natToChars N) (natToChars D) hslashN,
    splitOnChar_of_not_mem '/' (natToChars D) hslashD,
    wsSplit_of_all_nonspace (natToChars N) (natToChars_ne_nil N) hNns,
    wsSplit_of_all_nonspace (natToChars D) (natToChars_ne_nil D) hDns,
    pyIntParse_natToChars]

theorem set_from_string_whole_only (f : My_Fraction)
    (hsep : f.english_separator = .pstr [' ']) (W : ℕ) :
    f.set_from_string (natToChars W) =
      .ok { f with whole := (W : ℤ), numerator := 0, denominator := some 1 } := by
  have hW := natToChars_all_digits W
  have hdot : ('.' : Char) ∉ natToChars W :=
    not_mem_of_digits _ hW _ (by decide)
  have hslashW : ('/' : Char) ∉ natToChars W :=
    not_mem_of_digits _ hW _ (by decide)
  unfold My_Fraction.set_from_string
  rw [if_neg hdot, hsep]
  simp only [if_true,
    splitOnChar_of_not_mem '/' (natToChars W) hslashW,
    pyIntParse_natToChars]

theorem string_to_float_wnd (u : Units) (hsep : u.english_separator = .pstr [' '])
    (W N D : ℕ) (hN : (0 : ℤ) < (N : ℤ)) (hD : (D : ℤ) ≠ 0) :
    u.string_to_float ((natToChars W ++ ' ' :: natToChars N) ++ '/' :: natToChars D) =
      .ok ((W : ℚ) + (N : ℚ) / (D : ℚ)) := by
  unfold Units.string_to_float
  dsimp only []
  have hinit : (My_Fraction.init u.english_separator 0 0 none).english_separator =
      .pstr [' '] := by
    simp [My_Fraction.init, hsep]
  rw [set_from_string_wnd _ hinit W N D]
  simp only [gt_iff_lt, hN, if_pos, if_neg hD]
  norm_num

theorem string_to_float_nd (u : Units) (hsep : u.english_separator = .pstr [' '])
    (N D : ℕ) (hN : (0 : ℤ) < (N : ℤ)) (hD : (D : ℤ) ≠ 0) :
    u.string_to_float (natToChars N ++ '/' :: natToChars D) =
      .ok ((N : ℚ) / (D : ℚ)) := by
  unfold Units.string_to_float
  dsimp only []
  have hinit : (My_Fraction.init u.english_separator 0 0 none).english_separator =
      .pstr [' '] := by
    simp [My_Fraction.init, hsep]
  rw [set_from_string_nd _ hinit N D]
  simp only [gt_iff_lt, hN, if_pos, if_neg hD]
  norm_num

theorem string_to_float_whole_only (u : Units)
    (hsep : u.english_separator = .pstr [' ']) (W : ℕ) :
    u.string_to_float (natToChars W) = .ok ((W : ℚ)) := by
  unfold Units.string_to_float
  dsimp only []
  have hinit : (My_Fraction.init u.english_separator 0 0 none).english_separator =
      .pstr [' '] := by
    simp [My_Fraction.init, hsep]
  rw [set_from_string_whole_only _ hinit W]
  norm_num

/-- C3 amended (proved for the standard space separator; the counterexample
below shows the round trip fails for a separator that collides with the
fraction syntax, e.g. `"/"`): for an English unit system with separator
`" "`, increments-per-inch in {32, 64, 96} and any integer increment
`0 ≤ v ≤ 10000` whose fraction `v/ipi` reduces to a denominator in
{1,2,4,8,16,32,64}, `string_to_increments (increments_to_string v)`
returns exactly `v` (whatever the shared quantum and translator are). -/
theorem english_roundtrip (tr : Option (PyStr → PyStr)) (quant : ℚ) (ipi v : ℤ)
    (hipi : ipi ∈ ([32, 64, 96] : List ℤ)) (hv0 : 0 ≤ v) (hv1 : v ≤ 10000)
    (hallow : ipi / ((Int.gcd v ipi : ℕ) : ℤ) ∈ ([1, 2, 4, 8, 16, 32, 64] : List ℤ)) :
    Except.bind
      (Units.increments_to_string quant
        (Units.init (.pstr [' ']) false (some ((ipi : ℤ) : ℚ)) tr) (.pint v) false)
      (fun s =>
        Units.string_to_increments
          (Units.init (.pstr [' ']) false (some ((ipi : ℤ) : ℚ)) tr) s true) =
      .ok ((v : ℚ)) := by
  have hipos : 0 < ipi := by
    simp only [List.mem_cons, List.not_mem_nil, or_false] at hipi
    rcases hipi with h | h | h <;> omega
  set u := Units.init (.pstr [' ']) false (some ((ipi : ℤ) : ℚ)) tr with hu
  have hmet : u.metric = false := rfl
  have hni : u.num_increments = ((ipi : ℤ) : ℚ) := rfl
  have hipiq : u.increments_per_inch = ((ipi : ℤ) : ℚ) := rfl
  have husep : u.english_separator = .pstr [' '] := rfl
  have hsti : ∀ (s : PyStr) (val : ℚ), u.string_to_float s = .ok val →
      u.string_to_increments s true =
        .ok ((my_round (val * ((ipi : ℤ) : ℚ)) : ℤ) : ℚ) := by
    intro s val h
    unfold Units.string_to_increments
    rw [h]
    unfold Units.length_to_increments
    rw [hni]
    simp only [if_true]
  have hfrac0 : My_Fraction.init (.pstr [' ']) 0 v (some ipi) =
      { sign := 1, whole := 0, numerator := v, denominator := some ipi
        english_separator := .pstr [' '] } := by
    unfold My_Fraction.init
    rw [if_neg (by omega : ¬((0 : ℤ) < 0 ∨ v < 0))]
    simp [abs_of_nonneg hv0]
  by_cases hv : v = 0
  · subst hv
    have hits : Units.increments_to_string quant u (.pint 0) false = .ok (['0']) := by
      unfold Units.increments_to_string
      rw [hmet]
      simp only [Bool.false_eq_true, if_false]
      rw [husep, hipiq, ratTrunc_intCast, hfrac0]
      rw [reduce_noop _ (Or.inr rfl)]
      dsimp only
      rw [if_neg (by simp)]
      unfold My_Fraction.to_string
      rw [reduce_noop _ (Or.inr rfl)]
      norm_num
    rw [hits]
    show Units.string_to_increments u (['0']) true = _
    have h0 : (['0'] : PyStr) = natToChars 0 := rfl
    rw [h0, hsti (natToChars 0) (((0 : ℕ) : ℚ))
      (string_to_float_whole_only u husep 0)]
    have hz : (((0 : ℕ) : ℚ)) * ((ipi : ℤ) : ℚ) = (((0 : ℤ)) : ℚ) := by
      push_cast
      ring
    rw [hz, my_round_intCast]
  · have hn2def : v - Int.fdiv v ipi * ipi = v % ipi := by
      rw [Int.fdiv_eq_ediv v (by omega), Int.emod_def]
      ring
    set w : ℤ := Int.fdiv v ipi with hw
    set n2 : ℤ := v - w * ipi with hn2
    have hn2mod : n2 = v % ipi := hn2def
    have hn2nonneg : 0 ≤ n2 := by
      rw [hn2mod]
      exact Int.emod_nonneg v (by omega)
    have hn2lt : n2 < ipi := by
      rw [hn2mod]
      exact Int.emod_lt_of_pos v hipos
    have hgv : Int.gcd n2 ipi = Int.gcd v ipi := by
      rw [hn2mod]
      exact gcd_emod_left v ipi
    set g0 : ℤ := ((Int.gcd n2 ipi : ℕ) : ℤ) with hg0
    have hg0pos : 0 < g0 := by
      rw [hg0]
      exact_mod_cast Int.gcd_pos_iff.mpr (Or.inr (by omega))
    set N : ℤ := n2 / g0 with hN
    set D : ℤ := ipi / g0 with hD
    have hNg : N * g0 = n2 := Int.ediv_mul_cancel Int.gcd_dvd_left
    have hDg : D * g0 = ipi := Int.ediv_mul_cancel Int.gcd_dvd_right
    have hDallow : D ∈ ([1, 2, 4, 8, 16, 32, 64] : List ℤ) := by
      rw [hD, hg0, hgv]
      exact hallow
    have hDpos : 0 < D := by
      simp only [List.mem_cons, List.not_mem_nil, or_false] at hDallow
      rcases hDallow with h | h | h | h | h | h | h <;> omega
    have hNnonneg : 0 ≤ N := by
      rw [hN]
      exact Int.ediv_nonneg hn2nonneg (by omega)
    have hwnonneg : 0 ≤ w := by
      rw [hw, Int.fdiv_eq_ediv v (by omega)]
      exact Int.ediv_nonneg hv0 (by omega)
    have hveq : v = w * ipi + n2 := by
      rw [hn2]
      ring
    have hred : (My_Fraction.init (.pstr [' ']) 0 v (some ipi)).reduce =
        .ok { sign := 1, whole := 0 + w, numerator := N, denominator := some D
              english_separator := .pstr [' '] } := by
      rw [hfrac0, reduce_eq_ok_main _ ipi rfl hv (by omega)]
    have hfix := reduce_fixed _ _ hred
    have hdenq : ((D : ℤ) : ℚ) ∈ allowDenoms := (cast_mem_allowDenoms D).mpr hDallow
    have hmid : Units.increments_to_string quant u (.pint v) false =
        My_Fraction.to_string
          { sign := 1, whole := 0 + w, numerator := N, denominator := some D
            english_separator := .pstr [' '] } := by
      unfold Units.increments_to_string
      rw [hmet]
      simp only [Bool.false_eq_true, if_false]
      rw [husep, hipiq, ratTrunc_intCast, hred]
      dsimp only
      rw [if_neg (fun hcon => hcon.2 hdenq)]
      rcases hts : My_Fraction.to_string
        { sign := 1, whole := 0 + w, numerator := N, denominator := some D
          english_separator := (.pstr [' '] : PVal) } with e | r
      · rfl
      · rfl
    rw [hmid]
    by_cases hN0 : N = 0
    · -- the fraction reduced to a whole number: render "w", parse it back
      have hn2zero : n2 = 0 := by
        rw [← hNg, hN0]
        ring
      have hwpos : 0 < w := by
        rcases lt_or_eq_of_le hwnonneg with h | h
        · exact h
        · exfalso
          apply hv
          rw [hveq, ← h, hn2zero]
          ring
      have hts : My_Fraction.to_string
          { sign := 1, whole := 0 + w, numerator := N, denominator := some D
            english_separator := (.pstr [' '] : PVal) } =
          .ok (natToChars (0 + w).toNat) := by
        unfold My_Fraction.to_string
        rw [hfix]
        dsimp only
        rw [if_pos (by omega : (0 : ℤ) + w > 0), if_neg (by simp [hN0])]
        dsimp only
        rw [if_neg (by simp [hN0]), if_neg (by omega : ¬((0 : ℤ) + w = 0))]
        rw [formatD_nonneg _ (by omega)]
      rw [hts]
      show Units.string_to_increments u (natToChars (0 + w).toNat) true = _
      rw [hsti _ _ (string_to_float_whole_only u husep (0 + w).toNat)]
      have hcast : (((0 + w).toNat : ℕ) : ℚ) * ((ipi : ℤ) : ℚ) = ((w * ipi : ℤ) : ℚ) := by
        rw [show ((0 : ℤ) + w) = w from zero_add w]
        rw [show ((w.toNat : ℕ) : ℚ) = ((w : ℤ) : ℚ) from by
          exact_mod_cast congrArg (fun z => ((z : ℤ) : ℚ)) (Int.toNat_of_nonneg hwnonneg)]
        push_cast
        ring
      rw [hcast, my_round_intCast]
      have : w * ipi = v := by omega
      rw [this]
    · -- a genuine fraction part: render and parse "w n/d" or "n/d"
      have hNpos : 0 < N := by omega
      have hDne : D ≠ 0 := by omega
      have hNcast : ((N.toNat : ℕ) : ℤ) = N := Int.toNat_of_nonneg hNnonneg
      have hDcast : ((D.toNat : ℕ) : ℤ) = D := Int.toNat_of_nonneg (by omega)
      have harith : ∀ whole : ℤ, 0 ≤ whole →
          ((whole : ℚ) + ((N : ℤ) : ℚ) / ((D : ℤ) : ℚ)) * ((ipi : ℤ) : ℚ) =
            ((whole * ipi + n2 : ℤ) : ℚ) := by
        intro whole _
        have hDq : ((D : ℤ) : ℚ) ≠ 0 := by exact_mod_cast hDne
        have hZ : (whole * D + N) * ipi = (whole * ipi + n2) * D := by
          linear_combination (-N) * hDg + D * hNg
        have hZq : (((whole * D + N) * ipi : ℤ) : ℚ) =
            (((whole * ipi + n2) * D : ℤ) : ℚ) := by exact_mod_cast hZ
        push_cast at hZq
        field_simp
        linear_combination hZq
      by_cases hw0 : (0 : ℤ) + w > 0
      · have hts : My_Fraction.to_string
            { sign := 1, whole := 0 + w, numerator := N, denominator := some D
              english_separator := (.pstr [' '] : PVal) } =
            .ok ((natToChars (0 + w).toNat ++ ' ' :: natToChars N.toNat) ++
              '/' :: natToChars D.toNat) := by
          unfold My_Fraction.to_string
          rw [hfix]
          dsimp only
          rw [if_pos hw0, if_pos (by simp [hN0])]
          dsimp only [PVal.asStr]
          rw [if_pos (by simp [hN0])]
          rw [formatD_nonneg _ (by omega), formatD_nonneg _ (by omega),
            formatD_nonneg _ (by omega)]
          simp [List.append_assoc]
        rw [hts]
        show Units.string_to_increments u _ true = _
        rw [hsti _ _ (string_to_float_wnd u husep (0 + w).toNat N.toNat D.toNat
          (by omega) (by omega))]
        have hcast1 : (((0 + w).toNat : ℕ) : ℚ) = ((w : ℤ) : ℚ) := by
          rw [show ((0 : ℤ) + w) = w from zero_add w]
          exact_mod_cast congrArg (fun z => ((z : ℤ) : ℚ)) (Int.toNat_of_nonneg hwnonneg)
        have hcast2 : ((N.toNat : ℕ) : ℚ) = ((N : ℤ) : ℚ) := by exact_mod_cast hNcast
        have hcast3 : ((D.toNat : ℕ) : ℚ) = ((D : ℤ) : ℚ) := by exact_mod_cast hDcast
        rw [hcast1, hcast2, hcast3, harith w hwnonneg, my_round_intCast]
        have : w * ipi + n2 = v := by omega
        rw [this]
      · have hwzero : w = 0 := by omega
        have hts : My_Fraction.to_string
            { sign := 1, whole := 0 + w, numerator := N, denominator := some D
              english_separator := (.pstr [' '] : PVal) } =
            .ok (natToChars N.toNat ++ '/' :: natToChars D.toNat) := by
          unfold My_Fraction.to_string
          rw [hfix]
          dsimp only
          rw [if_neg (by decide : ¬((1 : ℤ) < 0)), if_neg hw0]
          dsimp only
          rw [if_pos (by simp [hN0])]
          rw [formatD_nonneg _ (by omega), formatD_nonneg _ (by omega)]
          simp
        rw [hts]
        show Units.string_to_increments u _ true = _
        rw [hsti _ _ (string_to_float_nd u husep N.toNat D.toNat
          (by omega) (by omega))]
        have hcast2 : ((N.toNat : ℕ) : ℚ) = ((N : ℤ) : ℚ) := by exact_mod_cast hNcast
        have hcast3 : ((D.toNat : ℕ) : ℚ) = ((D : ℤ) : ℚ) := by exact_mod_cast hDcast
        have hzero : ((N.toNat : ℕ) : ℚ) / ((D.toNat : ℕ) : ℚ) =
            (((0 : ℤ) : ℚ) + ((N : ℤ) : ℚ) / ((D : ℤ) : ℚ)) := by
          rw [hcast2, hcast3]
          norm_num
        rw [hzero, harith 0 le_rfl, my_round_intCast]
        have : (0 : ℤ) * ipi + n2 = v := by
          rw [hveq, hwzero]
        rw [this]

/-- Witness for C3 at a concrete input: 48 increments at 32 per inch render
as `1 1/2` and parse back to 48. -/
theorem english_roundtrip_witness :
    ((32 : ℤ) ∈ ([32, 64, 96] : List ℤ)) ∧ ((0 : ℤ) ≤ 48) ∧ ((48 : ℤ) ≤ 10000) ∧
    ((32 : ℤ) / ((Int.gcd 48 32 : ℕ) : ℤ) ∈ ([1, 2, 4, 8, 16, 32, 64] : List ℤ)) ∧
    Except.bind
      (Units.increments_to_string (1/100)
        (Units.init (.pstr [' ']) false (some ((32 : ℤ) : ℚ)) none) (.pint 48) false)
      (fun s =>
        Units.string_to_increments
          (Units.init (.pstr [' ']) false (some ((32 : ℤ) : ℚ)) none) s true) =
      .ok (((48 : ℤ) : ℚ)) :=
  ⟨by decide, by decide, by decide, by with_unfolding_all decide,
    english_roundtrip none (1/100) 32 48 (by decide) (by decide) (by decide)
      (by with_unfolding_all decide)⟩

/-- C3 counterexample for the claim as stated over EVERY English unit
system: the english separator is part of the unit system, and a separator
that collides with the fraction syntax breaks the round trip.  With
separator `"/"`, 16 increments at 32 per inch (reduced denominator 2, which
is allowed) render as `"1/2"`; parsing first replaces the separator's first
occurrence by a space, yielding `"1 2"`, which then has no divisor and
fails `int("1 2")` with `ValueError` -- so `string_to_increments` raises
instead of returning 16. -/
theorem roundtrip_fails_for_slash_separator :
    ((32 : ℤ) / ((Int.gcd 16 32 : ℕ) : ℤ) ∈ ([1, 2, 4, 8, 16, 32, 64] : List ℤ)) ∧
    Units.increments_to_string (1/100)
      (Units.init (.pstr ['/']) false (some ((32 : ℤ) : ℚ)) none) (.pint 16) false =
      .ok (("1/2").toList) ∧
    exceptIsError
      (Units.string_to_increments
        (Units.init (.pstr ['/']) false (some ((32 : ℤ) : ℚ)) none)
        (("1/2").toList) true) = true := by
  with_unfolding_all decide

/-! ### The print loop: per-column simulation (towards C5, C6, C9) -/

theorem seqOf_nil : seqOf [] = [] := rfl

theorem seqOf_take_succ (cuts : List Cut) (i : ℕ) (h : i < cuts.length) :
    seqOf (cuts.take (i + 1)) =
      (cuts.get ⟨i, h⟩).passes.reverse ++ seqOf (cuts.take i) := by
  unfold seqOf
  rw [List.take_succ, List.getElem?_eq_getElem h]
  rw [List.map_append, List.flatten_append, List.reverse_append]
  simp

theorem seqOf_length (cuts : List Cut) : (seqOf cuts).length = totalPasses cuts := by
  unfold seqOf totalPasses
  rw [List.length_reverse, List.length_flatten, List.map_map]
  rfl

theorem colInv_init (cuts : List Cut) (hne : ∀ c ∈ cuts, c.passes ≠ []) :
    ColInv cuts ⟨(cuts.length : ℤ) - 1, 0, 0⟩ := by
  unfold ColInv
  refine ⟨?_, ?_, ?_, ?_⟩
  · show (cuts.length : ℤ) - 1 < (cuts.length : ℤ)
    omega
  · show (-1 : ℤ) ≤ (cuts.length : ℤ) - 1
    omega
  · intro h
    apply List.length_pos.mpr
    exact hne _ (List.get_mem cuts _ _)
  · intro _
    rfl

theorem colRemaining_init (cuts : List Cut) :
    colRemaining cuts ⟨(cuts.length : ℤ) - 1, 0, 0⟩ = seqOf cuts := by
  rcases hlen : cuts.length with _ | n
  · rw [List.length_eq_zero] at hlen
    subst hlen
    rfl
  · unfold colRemaining
    rw [dif_pos (by constructor <;> simp [hlen])]
    have htn : ((((cuts.length : ℤ)) - 1)).toNat = n := by omega
    have hn : n < cuts.length := by omega
    have hstep := seqOf_take_succ cuts n hn
    rw [List.take_of_length_le (by omega)] at hstep
    rw [hstep]
    simp only [List.drop_zero]
    congr 1 <;> simp [htn]

theorem pyListGet_rev (l : List ℤ) (k : ℕ) (h : k < l.length) :
    pyListGet l ((l.length : ℤ) - (k : ℤ) - 1) = .ok (l.reverse.getD k 0) := by
  unfold pyListGet
  have hrl : k < l.reverse.length := by simpa using h
  rw [if_neg (by omega), if_neg (by omega)]
  have h1 : ((((l.length : ℤ)) - (k : ℤ) - 1)).toNat = l.length - 1 - k := by omega
  rw [h1, List.get?_eq_getElem?, List.getElem?_eq_getElem (by omega)]
  rw [List.getD_eq_getElem l.reverse 0 hrl, List.getElem_reverse]

theorem drop_reverse_cons (l : List ℤ) (k : ℕ) (h : k < l.length) :
    l.reverse.drop k = l.reverse.getD k 0 :: l.reverse.drop (k + 1) := by
  have hrl : k < l.reverse.length := by simpa using h
  rw [List.drop_eq_getElem_cons hrl, List.getD_eq_getElem l.reverse 0 hrl]

theorem stepCol_exhausted (quant : ℚ) (units : Units) (wv : ℤ) (cuts : List Cut)
    (lab : PyStr) (st : ColSt) (hinv : ColInv cuts st)
    (hrem : colRemaining cuts st = []) :
    stepCol quant units (.pint wv) cuts lab st =
      .ok (("**").toList, ("**").toList, st, false) := by
  have hci : st.cut_index < 0 := by
    by_contra hcon
    push_neg at hcon
    have h2 : st.cut_index.toNat < cuts.length := by
      have := hinv.1
      omega
    have h3 := hinv.2.2.1 ⟨hcon, h2⟩
    simp only [List.get_eq_getElem] at h3
    unfold colRemaining at hrem
    rw [dif_pos ⟨hcon, h2⟩] at hrem
    rw [List.append_eq_nil] at hrem
    have h4 := congrArg List.length hrem.1
    rw [List.length_drop, List.length_reverse] at h4
    simp only [List.length_nil, List.get_eq_getElem] at h4
    omega
  unfold stepCol
  rw [if_neg (by omega)]

theorem stepCol_emit (quant : ℚ) (units : Units) (wv : ℤ) (cuts : List Cut)
    (lab : PyStr) (st : ColSt)
    (Hfmt : ∀ z : ℤ, ∃ s, Units.increments_to_string quant units (.pint z) false = .ok s)
    (hinv : ColInv cuts st) (hne : ∀ c ∈ cuts, c.passes ≠ [])
    (p : ℤ) (rest : List ℤ) (hrem : colRemaining cuts st = p :: rest) :
    ∃ dim st2,
      Units.increments_to_string quant units (.pint (wv - p)) false = .ok dim ∧
      stepCol quant units (.pint wv) cuts lab st =
        .ok (natToChars (st.total + 1) ++ lab, dim, st2, true) ∧
      ColInv cuts st2 ∧ colRemaining cuts st2 = rest ∧ st2.total = st.total + 1 := by
  have hci : 0 ≤ st.cut_index := by
    by_contra hcon
    push_neg at hcon
    unfold colRemaining at hrem
    rw [dif_neg (by omega)] at hrem
    cases hrem
  have h2 : st.cut_index.toNat < cuts.length := by
    have := hinv.1
    omega
  set c := cuts.get ⟨st.cut_index.toNat, h2⟩ with hc
  have hpi : st.pass_index < c.passes.length := hinv.2.2.1 ⟨hci, h2⟩
  unfold colRemaining at hrem
  rw [dif_pos ⟨hci, h2⟩, ← hc] at hrem
  rw [drop_reverse_cons c.passes st.pass_index hpi, List.cons_append] at hrem
  obtain ⟨hphead, hresteq⟩ := List.cons_eq_cons.mp hrem
  obtain ⟨dim, hdim⟩ := Hfmt (wv - p)
  refine ⟨dim,
    (if st.pass_index + 1 = c.passes.length then
      (⟨st.cut_index - 1, 0, st.total + 1⟩ : ColSt)
    else ⟨st.cut_index, st.pass_index + 1, st.total + 1⟩),
    hdim, ?_, ?_, ?_, ?_⟩
  · -- the computation itself
    unfold stepCol
    rw [if_pos hci]
    rw [List.get?_eq_getElem?, List.getElem?_eq_getElem h2,
      show cuts[st.cut_index.toNat] = c from hc.symm]
    dsimp only
    rw [pyListGet_rev c.passes st.pass_index hpi, hphead]
    dsimp only
    rw [hdim]
  · -- the invariant is preserved
    by_cases hpn : st.pass_index + 1 = c.passes.length
    · rw [if_pos hpn]
      refine ⟨?_, ?_, ?_, ?_⟩
      · show st.cut_index - 1 < (cuts.length : ℤ)
        have := hinv.1
        omega
      · show (-1 : ℤ) ≤ st.cut_index - 1
        omega
      · intro h
        apply List.length_pos.mpr
        exact hne _ (List.get_mem cuts _ _)
      · intro _
        rfl
    · rw [if_neg hpn]
      refine ⟨hinv.1, hinv.2.1, ?_, ?_⟩
      · intro h
        exact Nat.lt_of_le_of_ne hpi hpn
      · intro hcon
        exact absurd (show st.cut_index < 0 from hcon) (by omega)
  · -- the remaining sequence shrinks by exactly the emitted head
    by_cases hpn : st.pass_index + 1 = c.passes.length
    · rw [if_pos hpn]
      have hdropnil : c.passes.reverse.drop (st.pass_index + 1) = [] := by
        apply List.drop_eq_nil_of_le
        rw [List.length_reverse]
        omega
      rw [hdropnil, List.nil_append] at hresteq
      rcases hzero : st.cut_index.toNat with _ | m
      · -- the consumed cut was the first one: the column is exhausted
        unfold colRemaining
        rw [dif_neg (fun hcc =>
          absurd (show (0 : ℤ) ≤ st.cut_index - 1 from hcc.1) (by omega))]
        rw [← hresteq, hzero]
        rfl
      · unfold colRemaining
        have hm : m < cuts.length := by omega
        rw [dif_pos (show (0 : ℤ) ≤ st.cut_index - 1 ∧
          ((st.cut_index - 1)).toNat < cuts.length from by constructor <;> omega)]
        rw [hzero] at hresteq
        rw [← hresteq, seqOf_take_succ cuts m hm]
        have htn : ((st.cut_index - 1)).toNat = m := by omega
        simp only [List.drop_zero]
        congr 1 <;> simp [htn]
    · rw [if_neg hpn]
      unfold colRemaining
      rw [dif_pos ⟨hci, h2⟩]
      exact hresteq
  · by_cases hpn : st.pass_index + 1 = c.passes.length
    · rw [if_pos hpn]
    · rw [if_neg hpn]

/-! ### Totality of the English formatter, and the row-count bound -/

theorem exists_ok_of_not_error {α : Type} (e : Except String α)
    (h : exceptIsError e = false) : ∃ v, e = .ok v := by
  cases e with
  | ok v => exact ⟨v, rfl⟩
  | error e => simp [exceptIsError] at h

theorem reduce_ok_keeps (f : My_Fraction) (d : ℤ) (hden : f.denominator = some d)
    (hd : d ≠ 0) :
    ∃ g, f.reduce = .ok g ∧ g.english_separator = f.english_separator ∧
      ∃ d2, g.denominator = some d2 ∧ d2 ≠ 0 := by
  by_cases hnum : f.numerator = 0
  · exact ⟨f, reduce_noop f (Or.inr hnum), rfl, d, hden, hd⟩
  · refine ⟨_, reduce_eq_ok_main f d hden hnum hd, rfl, _, rfl, ?_⟩
    set n2 := f.numerator - Int.fdiv f.numerator d * d with hn2
    set g0 : ℤ := ((Int.gcd n2 d : ℕ) : ℤ) with hg0
    have hdvd_d : g0 ∣ d := Int.gcd_dvd_right
    have hdback : d / g0 * g0 = d := Int.ediv_mul_cancel hdvd_d
    intro hcon
    rw [hcon, zero_mul] at hdback
    exact hd hdback.symm

theorem to_string_not_error (f : My_Fraction) (sep : PyStr) (d : ℤ)
    (hsep : f.english_separator = .pstr sep)
    (hden : f.denominator = some d) (hd : d ≠ 0) :
    exceptIsError f.to_string = false := by
  obtain ⟨g, hred, hgsep, d2, hgden, hd2⟩ := reduce_ok_keeps f d hden hd
  unfold My_Fraction.to_string
  rw [hred]
  dsimp only
  by_cases hnum : g.numerator ≠ 0
  · by_cases hw : g.whole > 0
    · rw [if_pos hw, if_pos hnum, hgsep, hsep]
      dsimp only [PVal.asStr]
      rw [if_pos hnum, hgden]
      rfl
    · rw [if_neg hw]
      dsimp only
      rw [if_pos hnum, hgden]
      rfl
  · by_cases hw : g.whole > 0
    · rw [if_pos hw, if_neg hnum]
      dsimp only
      rw [if_neg hnum, if_neg (show ¬ g.whole = 0 from by omega)]
      rfl
    · rw [if_neg hw]
      dsimp only
      rw [if_neg hnum]
      by_cases hw0 : g.whole = 0
      · rw [if_pos hw0]
        rfl
      · rw [if_neg hw0]
        rfl

theorem increments_to_string_pint_ok (quant : ℚ) (u : Units) (sep : PyStr)
    (hm : u.metric = false) (hsep : u.english_separator = .pstr sep)
    (hD : ratTrunc u.increments_per_inch ≠ 0) (hni : u.num_increments ≠ 0)
    (z : ℤ) :
    ∃ s, Units.increments_to_string quant u (.pint z) false = .ok s := by
  apply exists_ok_of_not_error
  unfold Units.increments_to_string
  rw [hm]
  rw [if_neg (show ¬ (false = true) from by simp)]
  dsimp only
  obtain ⟨g, hred, hgsep, d2, hgden, hd2⟩ :=
    reduce_ok_keeps (My_Fraction.init u.english_separator 0 z
      (some (ratTrunc u.increments_per_inch))) (ratTrunc u.increments_per_inch)
      rfl hD
  rw [hred]
  dsimp only
  by_cases hcond : g.numerator ≠ 0 ∧ ¬ ((g.denominator.getD 0 : ℚ) ∈ allowDenoms)
  · rw [if_pos hcond, if_neg hni]
    rfl
  · rw [if_neg hcond]
    have hts := to_string_not_error g sep d2
      (by rw [hgsep]; exact hsep) hgden hd2
    obtain ⟨s, hs⟩ := exists_ok_of_not_error _ hts
    rw [hs]
    rfl

theorem lt_foldr_max_iff (l : List ℕ) (j : ℕ) :
    j < l.foldr max 0 ↔ ∃ n ∈ l, j < n := by
  induction l with
  | nil => simp
  | cons a t ih =>
    simp only [List.foldr_cons, lt_max_iff, ih, List.mem_cons]
    constructor
    · rintro (h | ⟨n, hn, hjn⟩)
      · exact ⟨a, Or.inl rfl, h⟩
      · exact ⟨n, Or.inr hn, hjn⟩
    · rintro ⟨n, hn | hn, hjn⟩
      · subst hn
        exact Or.inl hjn
      · exact Or.inr ⟨n, hn, hjn⟩

theorem foldr_max_le_sum (l : List ℕ) : l.foldr max 0 ≤ l.sum := by
  induction l with
  | nil => simp
  | cons a t ih =>
    simp only [List.foldr_cons, List.sum_cons]
    omega

theorem any_lt_max (sps : List (PyStr × List ℤ)) (j : ℕ) :
    sps.any (fun c => decide (j < c.2.length)) =
      decide (j < (sps.map (fun c => c.2.length)).foldr max 0) := by
  by_cases h : j < (sps.map (fun c => c.2.length)).foldr max 0
  · rw [decide_eq_true h, List.any_eq_true]
    obtain ⟨n, hn, hjn⟩ := (lt_foldr_max_iff _ _).mp h
    obtain ⟨c, hc, hcn⟩ := List.mem_map.mp hn
    have hcn2 : c.2.length = n := hcn
    refine ⟨c, hc, decide_eq_true ?_⟩
    rw [hcn2]
    exact hjn
  · rw [decide_eq_false h, List.any_eq_false]
    intro c hc
    simp only [decide_eq_true_eq]
    intro hjc
    exact h ((lt_foldr_max_iff _ _).mpr
      ⟨c.2.length, List.mem_map_of_mem _ hc, hjc⟩)

/-! ### The simulation relation: initialization and one step -/

theorem colRel_init (cuts : List Cut) (lab : PyStr)
    (hne : ∀ c ∈ cuts, c.passes ≠ []) :
    ColRel 0 (cuts, lab, ColSt.mk ((cuts.length : ℤ) - 1) 0 0) (lab, seqOf cuts) := by
  refine ⟨rfl, rfl, colInv_init cuts hne, ?_, ?_, hne⟩
  · rw [colRemaining_init, List.drop_zero]
  · simp

theorem colRel_init_forall (l : List (List Cut × PyStr))
    (hne : ∀ p ∈ l, ∀ c ∈ p.1, c.passes ≠ []) :
    List.Forall₂ (ColRel 0)
      (l.map (fun p => (p.1, p.2, ColSt.mk ((p.1.length : ℤ) - 1) 0 0)))
      (l.map (fun p => (p.2, seqOf p.1))) := by
  induction l with
  | nil => exact List.Forall₂.nil
  | cons a t ih =>
    exact List.Forall₂.cons
      (colRel_init a.1 a.2 (hne a (List.mem_cons_self a t)))
      (ih (fun p hp => hne p (List.mem_cons_of_mem a hp)))

theorem stepCol_rel (quant : ℚ) (units : Units) (wv : ℤ)
    (Hfmt : ∀ z : ℤ, ∃ s, Units.increments_to_string quant units (.pint z) false = .ok s)
    (j : ℕ) (cuts : List Cut) (lab : PyStr) (st : ColSt) (sp : PyStr × List ℤ)
    (hrel : ColRel j (cuts, lab, st) sp) :
    ∃ st2, stepCol quant units (.pint wv) cuts lab st =
        .ok ((cellAt quant units wv j sp.1 sp.2).1,
          (cellAt quant units wv j sp.1 sp.2).2, st2, decide (j < sp.2.length)) ∧
      ColRel (j + 1) (cuts, lab, st2) sp := by
  obtain ⟨hlab, hseq, hinv, hrem, htot, hne⟩ := hrel
  by_cases hj : j < sp.2.length
  · have hdrop : sp.2.drop j = sp.2.getD j 0 :: sp.2.drop (j + 1) := by
      rw [List.drop_eq_getElem_cons hj, List.getD_eq_getElem sp.2 0 hj]
    rw [hdrop] at hrem
    obtain ⟨dim, st2, hdim, hstep, hinv2, hrem2, htot2⟩ :=
      stepCol_emit quant units wv cuts lab st Hfmt hinv hne _ _ hrem
    refine ⟨st2, ?_, ?_⟩
    · rw [hstep]
      unfold cellAt
      simp only [if_pos hj]
      unfold dimString
      rw [hdim, htot, show min j sp.2.length = j from by omega, hlab,
        decide_eq_true hj]
      rfl
    · refine ⟨hlab, hseq, hinv2, hrem2, ?_, hne⟩
      rw [htot2, htot]
      omega
  · have hdrop : sp.2.drop j = [] := List.drop_eq_nil_of_le (by omega)
    rw [hdrop] at hrem
    have hstep := stepCol_exhausted quant units wv cuts lab st hinv hrem
    refine ⟨st, ?_, ?_⟩
    · rw [hstep]
      unfold cellAt
      simp only [if_neg hj]
      rw [decide_eq_false hj]
    · refine ⟨hlab, hseq, hinv, ?_, ?_, hne⟩
      · rw [hrem]
        exact (List.drop_eq_nil_of_le (by omega)).symm
      · rw [htot]
        omega

theorem rowStep_rel (quant : ℚ) (units : Units) (wv : ℤ)
    (Hfmt : ∀ z : ℤ, ∃ s, Units.increments_to_string quant units (.pint z) false = .ok s)
    (j : ℕ) :
    ∀ (cols : List (List Cut × PyStr × ColSt)) (sps : List (PyStr × List ℤ)),
    List.Forall₂ (ColRel j) cols sps →
    ∃ cols2,
      rowStep quant units (.pint wv) cols =
        .ok ((sps.map (fun c => formCell (cellAt quant units wv j c.1 c.2).1
            (cellAt quant units wv j c.1 c.2).2)).flatten,
          cols2, sps.any (fun c => decide (j < c.2.length))) ∧
      List.Forall₂ (ColRel (j + 1)) cols2 sps := by
  intro cols sps h
  induction h with
  | nil => exact ⟨[], rfl, List.Forall₂.nil⟩
  | @cons a b l1 l2 hab htail ih =>
    obtain ⟨cols2, hrow, hrel2⟩ := ih
    obtain ⟨cuts, lab, st⟩ := a
    obtain ⟨st2, hstep, hrel1⟩ := stepCol_rel quant units wv Hfmt j cuts lab st b hab
    refine ⟨(cuts, lab, st2) :: cols2, ?_, List.Forall₂.cons hrel1 hrel2⟩
    show rowStep quant units (.pint wv) ((cuts, lab, st) :: l1) = _
    unfold rowStep
    rw [hstep]
    dsimp only
    rw [hrow]
    dsimp only
    rw [List.map_cons, List.flatten_cons, List.any_cons]

theorem writeF_none (fs : FileState) (s : PyStr) :
    writeF none fs s =
      ({ fs with written := fs.written + 1, lines := fs.lines ++ [s] }, none) := by
  unfold writeF
  rw [if_neg (by simp)]

theorem tableLoop_rel (quant : ℚ) (units : Units) (wv : ℤ)
    (Hfmt : ∀ z : ℤ, ∃ s, Units.increments_to_string quant units (.pint z) false = .ok s)
    (sps : List (PyStr × List ℤ)) :
    ∀ (fuel j : ℕ) (cols : List (List Cut × PyStr × ColSt)) (fs : FileState),
    List.Forall₂ (ColRel j) cols sps →
    j ≤ (sps.map (fun c => c.2.length)).foldr max 0 →
    (sps.map (fun c => c.2.length)).foldr max 0 < j + fuel →
    tableLoop none quant units (.pint wv) fuel cols fs =
      ({ fs with
         written := fs.written + ((sps.map (fun c => c.2.length)).foldr max 0 - j),
         lines := fs.lines ++
           (List.range ((sps.map (fun c => c.2.length)).foldr max 0 - j)).map
             (fun k => specRow quant units wv sps (j + k)) }, none)
  | 0, j, cols, fs => by
    intro _ hle hlt
    exact absurd hlt (by omega)
  | fuel + 1, j, cols, fs => by
    intro hrel hle hlt
    obtain ⟨cols2, hrow, hrel2⟩ := rowStep_rel quant units wv Hfmt j cols sps hrel
    simp only [tableLoop]
    rw [hrow]
    dsimp only
    by_cases hjR : j < (sps.map (fun c => c.2.length)).foldr max 0
    · have hany : sps.any (fun c => decide (j < c.2.length)) = true := by
        rw [any_lt_max]
        exact decide_eq_true hjR
      rw [hany, if_pos rfl, writeF_none]
      dsimp only
      rw [tableLoop_rel quant units wv Hfmt sps fuel (j + 1) cols2 _ hrel2
        (by omega) (by omega)]
      dsimp only
      rw [Prod.mk.injEq]
      refine ⟨?_, rfl⟩
      rw [FileState.mk.injEq]
      refine ⟨rfl, by omega, ?_⟩
      rw [List.append_assoc]
      congr 1
      rw [show (sps.map (fun c => c.2.length)).foldr max 0 - j =
        ((sps.map (fun c => c.2.length)).foldr max 0 - (j + 1)) + 1 from by omega]
      rw [List.range_succ_eq_map, List.map_cons, List.map_map,
        List.singleton_append]
      congr 1
      apply List.map_congr_left
      intro k _
      show specRow quant units wv sps ((j + 1) + k) =
        specRow quant units wv sps (j + (k + 1))
      exact congrArg (specRow quant units wv sps) (by omega)
    · have hany : sps.any (fun c => decide (j < c.2.length)) = false := by
        rw [any_lt_max]
        exact decide_eq_false hjR
      rw [hany, if_neg (show ¬ (false = true) from by simp)]
      rw [show (sps.map (fun c => c.2.length)).foldr max 0 - j = 0 from by omega]
      simp

theorem assembleColumns_length (boards : Boards4) :
    (assembleColumns boards).1.length = (assembleColumns boards).2.length := by
  unfold assembleColumns
  by_cases h3 : boards.b3.active <;> by_cases h2 : boards.b2.active <;>
    simp [h3, h2]

/-- The full behaviour of `print_table` on the no-write-failure path with a
live translator and an integer board width: it writes the title, the header
block, and one data row for each index below the largest per-column pass
count, and returns with the file closed and no exception. -/
theorem print_table_spec (quant : ℚ) (fn title : PyStr) (boards : Boards4)
    (tr : PyStr → PyStr) (wv : ℤ)
    (htr : boards.b0.units.transl = some tr)
    (hw : boards.b0.width = PVal.pint wv)
    (Hfmt : ∀ z : ℤ, ∃ s, Units.increments_to_string quant boards.b0.units
      (.pint z) false = .ok s)
    (hne : ∀ cuts ∈ (assembleColumns boards).1, ∀ c ∈ cuts, c.passes ≠ []) :
    print_table none quant fn boards title =
      ({ opened := false, written := 2 + tableRowCount boards,
         lines := (title ++ ['\n']) :: headerOf tr boards ::
           (List.range (tableRowCount boards)).map
             (specRow quant boards.b0.units wv (tableColsSpec boards)) }, none) := by
  have hforall : List.Forall₂ (ColRel 0)
      ((((assembleColumns boards).1).zip ((assembleColumns boards).2)).map
        (fun p => (p.1, p.2, ColSt.mk ((p.1.length : ℤ) - 1) 0 0)))
      (tableColsSpec boards) :=
    colRel_init_forall (((assembleColumns boards).1).zip ((assembleColumns boards).2))
      (fun p hp => hne p.1 (List.of_mem_zip hp).1)
  have hRle : tableRowCount boards ≤
      (((assembleColumns boards).1).map
        (fun cuts => (cuts.map (fun c => c.passes.length)).sum)).sum := by
    have hmeq : ((tableColsSpec boards).map (fun c => c.2.length)) =
        ((((assembleColumns boards).1).zip ((assembleColumns boards).2)).map
          (fun p => (p.1.map (fun c => c.passes.length)).sum)) := by
      unfold tableColsSpec
      rw [List.map_map]
      apply List.map_congr_left
      intro p hp
      exact seqOf_length p.1
    have hz : ((((assembleColumns boards).1).zip ((assembleColumns boards).2)).map
        (fun p => (p.1.map (fun c => c.passes.length)).sum)) =
        (((assembleColumns boards).1).map
          (fun cuts => (cuts.map (fun c => c.passes.length)).sum)) := by
      rw [show (fun p : List Cut × PyStr => (p.1.map (fun c => c.passes.length)).sum) =
        (fun cuts : List Cut => (cuts.map (fun c => c.passes.length)).sum) ∘ Prod.fst
        from rfl]
      rw [← List.map_map, List.map_fst_zip]
      exact le_of_eq (assembleColumns_length boards)
    unfold tableRowCount
    rw [hmeq, hz]
    exact foldr_max_le_sum _
  unfold print_table
  rw [htr]
  dsimp only
  rw [writeF_none]
  dsimp only
  rw [writeF_none]
  dsimp only
  rw [hw]
  rw [tableLoop_rel quant boards.b0.units wv Hfmt (tableColsSpec boards) _ 0 _ _
    hforall (Nat.zero_le _)
    (show ((tableColsSpec boards).map (fun c => c.2.length)).foldr max 0 <
      0 + ((((assembleColumns boards).1).map
        (fun cuts => (cuts.map (fun c => c.passes.length)).sum)).sum + 1)
      from by
        have hRle2 := hRle
        unfold tableRowCount at hRle2
        omega)]
  dsimp only
  simp only [Nat.zero_add, Nat.sub_zero]
  rfl

/-- C5: with boards 2 and 3 inactive, `print_table` assembles exactly the two
columns `A` (board 0's bottom cuts) and `B` (board 1's top cuts); on the
no-write-failure path it writes one data row for each index below the larger
of the two columns' total pass counts; and a column's pair of cells in a data
row is the filler `"**"`,`"**"` exactly when that column's passes are already
exhausted (so a later row shows fillers for the shorter column only). -/
theorem print_table_two_columns (quant : ℚ) (fn title : PyStr) (boards : Boards4)
    (tr : PyStr → PyStr) (wv : ℤ)
    (h2 : boards.b2.active = false) (h3 : boards.b3.active = false)
    (htr : boards.b0.units.transl = some tr)
    (hw : boards.b0.width = PVal.pint wv)
    (Hfmt : ∀ z : ℤ, ∃ s, Units.increments_to_string quant boards.b0.units
      (.pint z) false = .ok s)
    (hne0 : ∀ c ∈ boards.b0.bottom_cuts, c.passes ≠ [])
    (hne1 : ∀ c ∈ boards.b1.top_cuts, c.passes ≠ []) :
    assembleColumns boards =
      ([boards.b0.bottom_cuts, boards.b1.top_cuts], [['A'], ['B']]) ∧
    (∃ hdr, print_table none quant fn boards title =
      ({ opened := false,
         written := 2 + max (totalPasses boards.b0.bottom_cuts)
           (totalPasses boards.b1.top_cuts),
         lines := (title ++ ['\n']) :: hdr ::
           (List.range (max (totalPasses boards.b0.bottom_cuts)
             (totalPasses boards.b1.top_cuts))).map
             (specRow quant boards.b0.units wv
               [(['A'], seqOf boards.b0.bottom_cuts),
                (['B'], seqOf boards.b1.top_cuts)]) },
       none)) ∧
    (∀ j : ℕ, ∀ lab : PyStr, ∀ r : List ℤ,
      cellAt quant boards.b0.units wv j lab r = ((("**")).toList, (("**")).toList)
        ↔ r.length ≤ j) := by
  have hAC : assembleColumns boards =
      ([boards.b0.bottom_cuts, boards.b1.top_cuts], [['A'], ['B']]) := by
    unfold assembleColumns
    simp [h2, h3]
  have hne2 : ∀ cuts ∈ (assembleColumns boards).1, ∀ c ∈ cuts, c.passes ≠ [] := by
    intro cuts hcuts
    rw [hAC] at hcuts
    simp only [List.mem_cons, List.not_mem_nil, or_false] at hcuts
    rcases hcuts with rfl | rfl
    · exact hne0
    · exact hne1
  have hcols : tableColsSpec boards =
      [(['A'], seqOf boards.b0.bottom_cuts), (['B'], seqOf boards.b1.top_cuts)] := by
    unfold tableColsSpec
    rw [hAC]
    rfl
  have hrows : tableRowCount boards =
      max (totalPasses boards.b0.bottom_cuts) (totalPasses boards.b1.top_cuts) := by
    unfold tableRowCount
    rw [hcols]
    simp only [List.map_cons, List.map_nil, List.foldr_cons, List.foldr_nil]
    rw [seqOf_length, seqOf_length]
    omega
  refine ⟨hAC, ⟨headerOf tr boards, ?_⟩, ?_⟩
  · rw [print_table_spec quant fn title boards tr wv htr hw Hfmt hne2]
    rw [hrows, hcols]
  · intro j lab r
    constructor
    · intro h
      by_contra hlt
      push_neg at hlt
      unfold cellAt at h
      rw [if_pos hlt] at h
      have h1 : natToChars (j + 1) ++ lab = (("**")).toList := congrArg Prod.fst h
      cases hnc : natToChars (j + 1) with
      | nil => exact natToChars_ne_nil (j + 1) hnc
      | cons a t =>
        rw [hnc, List.cons_append] at h1
        have ha : a ∈ natToChars (j + 1) := by
          rw [hnc]
          exact List.mem_cons_self a t
        have hd := natToChars_all_digits (j + 1) a ha
        have ha2 : a = '*' := (List.cons_eq_cons.mp h1).1
        rw [ha2] at hd
        exact absurd hd (by decide)
    · intro hle
      unfold cellAt
      rw [if_neg (by omega)]

/-- Witness for C5: a concrete configuration with two active boards, the
hypotheses discharged by evaluation. -/
theorem print_table_two_columns_witness :
    assembleColumns cb5Boards =
      ([cb5Boards.b0.bottom_cuts, cb5Boards.b1.top_cuts], [['A'], ['B']]) :=
  (print_table_two_columns 1 [] [] cb5Boards (fun s => s) 100 rfl rfl rfl rfl
    (increments_to_string_pint_ok 1 cbUnits [' '] rfl rfl
      (by with_unfolding_all decide) (by with_unfolding_all decide))
    (by decide) (by decide)).1

/-- C6: the columns of `print_table` are assembled in the order: board 0's
bottom cuts (label `A`); board 3's top then bottom cuts when board 3 is
active, and board 2's top then bottom cuts when board 2 is active, taking
the next free labels from `B`,`C`,`D`,`E`,`F`; finally board 1's top cuts
with the next free label.  Within each column the emission sequence driving
the data rows is the reverse of the concatenated pass lists: both cuts and
passes are walked back-to-front. -/
theorem print_table_assembly_and_order (quant : ℚ) (fn title : PyStr)
    (boards : Boards4) (tr : PyStr → PyStr) (wv : ℤ)
    (htr : boards.b0.units.transl = some tr)
    (hw : boards.b0.width = PVal.pint wv)
    (Hfmt : ∀ z : ℤ, ∃ s, Units.increments_to_string quant boards.b0.units
      (.pint z) false = .ok s)
    (hne : ∀ cuts ∈ (assembleColumns boards).1, ∀ c ∈ cuts, c.passes ≠ []) :
    (assembleColumns boards).1 =
      [boards.b0.bottom_cuts] ++
      (if boards.b3.active then [boards.b3.top_cuts, boards.b3.bottom_cuts]
       else []) ++
      (if boards.b2.active then [boards.b2.top_cuts, boards.b2.bottom_cuts]
       else []) ++
      [boards.b1.top_cuts] ∧
    (assembleColumns boards).2 =
      [['A']] ++
      (if boards.b3.active then [['B'], ['C']] else []) ++
      (if boards.b2.active then
        (if boards.b3.active then [['D'], ['E']] else [['B'], ['C']])
       else []) ++
      [if boards.b3.active then (if boards.b2.active then ['F'] else ['D'])
       else (if boards.b2.active then ['D'] else ['B'])] ∧
    print_table none quant fn boards title =
      ({ opened := false, written := 2 + tableRowCount boards,
         lines := (title ++ ['\n']) :: headerOf tr boards ::
           (List.range (tableRowCount boards)).map
             (specRow quant boards.b0.units wv
               ((((assembleColumns boards).1).zip ((assembleColumns boards).2)).map
                 (fun p => (p.2, ((p.1.map (fun c => c.passes)).flatten).reverse)))) },
       none) := by
  refine ⟨?_, ?_, ?_⟩
  · cases h3 : boards.b3.active <;> cases h2 : boards.b2.active <;>
      simp [assembleColumns, h3, h2]
  · cases h3 : boards.b3.active <;> cases h2 : boards.b2.active <;>
      simp [assembleColumns, h3, h2]
  · rw [print_table_spec quant fn title boards tr wv htr hw Hfmt hne]
    rfl

/-- Witness for C6: a concrete configuration with board 3 active, the
hypotheses discharged by evaluation. -/
theorem print_table_assembly_and_order_witness :
    (assembleColumns cb6Boards).1 =
      [cb6Boards.b0.bottom_cuts] ++
      (if cb6Boards.b3.active then
        [cb6Boards.b3.top_cuts, cb6Boards.b3.bottom_cuts] else []) ++
      (if cb6Boards.b2.active then
        [cb6Boards.b2.top_cuts, cb6Boards.b2.bottom_cuts] else []) ++
      [cb6Boards.b1.top_cuts] :=
  (print_table_assembly_and_order 1 [] [] cb6Boards (fun s => s) 100 rfl rfl
    (increments_to_string_pint_ok 1 cbUnits [' '] rfl rfl
      (by with_unfolding_all decide) (by with_unfolding_all decide))
    (by decide)).1

/-- C9 counterexample: when the very first write raises (after the file was
opened), `print_table` propagates the `IOError` with the file still open --
the source has no `try`/`finally` or `with` around the writes, so no close
runs on that path. -/
theorem print_table_write_failure_leaves_open :
    (print_table (some 0) 1 [] cb5Boards []).2 = some ("IOError") ∧
    (print_table (some 0) 1 [] cb5Boards []).1.opened = true := by
  constructor
  · rfl
  · rfl

/-- C9 amended: on the path where no write raises (and the translator is
present, the width an integer, and the formatter succeeds), `print_table`
does return with the file closed and no exception; the guarantee claimed for
the write-failure paths, however, fails (see the counterexample). -/
theorem print_table_closes_without_write_failure (quant : ℚ) (fn title : PyStr)
    (boards : Boards4) (tr : PyStr → PyStr) (wv : ℤ)
    (htr : boards.b0.units.transl = some tr)
    (hw : boards.b0.width = PVal.pint wv)
    (Hfmt : ∀ z : ℤ, ∃ s, Units.increments_to_string quant boards.b0.units
      (.pint z) false = .ok s)
    (hne : ∀ cuts ∈ (assembleColumns boards).1, ∀ c ∈ cuts, c.passes ≠ []) :
    (print_table none quant fn boards title).1.opened = false ∧
    (print_table none quant fn boards title).2 = none := by
  rw [print_table_spec quant fn title boards tr wv htr hw Hfmt hne]
  exact ⟨rfl, rfl⟩

/-- Witness for the amended C9 theorem at a concrete configuration. -/
theorem print_table_closes_witness :
    (print_table none 1 [] cb6Boards []).1.opened = false :=
  (print_table_closes_without_write_failure 1 [] [] cb6Boards (fun s => s) 100
    rfl rfl
    (increments_to_string_pint_ok 1 cbUnits [' '] rfl rfl
      (by with_unfolding_all decide) (by with_unfolding_all decide))
    (by decide)).1

end PyRouterJig
